import Mathlib

/-!
Verification of the `iptools` core of the miniutils repository
(IP address / CIDR / range parsing and collapsing).

The Rust sources are shallowly embedded below.  Machine integers
(`u8`, `u32`, `u128`) are modelled as `Nat` together with explicit
saturation / truncation where the source performs it; addresses are a
tagged union of family and integer value, mirroring the crate's use of
a common 128-bit working integer for both families.
-/

namespace IPT

/-- Width of an IPv4 address in bits (`IPV4_BITS` in the source). -/
def IPV4_BITS : Nat := 32

/-- Width of an IPv6 address in bits (`IPV6_BITS` in the source). -/
def IPV6_BITS : Nat := 128

/-- Maximum number of addresses an enumerating entry point will
materialize (`MAX_RANGE_SIZE` in the source). -/
def MAX_RANGE_SIZE : Nat := 65536

/-- Largest value of the 128-bit working integer (`u128::MAX`). -/
def U128MAX : Nat := 2 ^ 128 - 1

/-- Saturating addition on the 128-bit working integer
(`u128::saturating_add`). -/
def satAdd128 (a b : Nat) : Nat := min (a + b) U128MAX

/-- IP address family (`IpFam` in structs.rs). -/
inductive IpFam where
  | V4
  | V6
deriving DecidableEq, Repr

/-- Bit width of a family. -/
def IpFam.bits : IpFam → Nat
  | .V4 => IPV4_BITS
  | .V6 => IPV6_BITS

/-- An IP address: the family tag together with the address's value as
an unsigned big-endian integer (the form `std::net::IpAddr` carries as
octets; conversions in the source go through `u32::from_be_bytes` /
`u128::from_be_bytes`). -/
inductive IpAddr where
  | v4 (val : Nat)
  | v6 (val : Nat)
deriving DecidableEq, Repr

/-- The integer value of an address. -/
def IpAddr.val : IpAddr → Nat
  | .v4 v => v
  | .v6 v => v

/-- The family of an address. -/
def IpAddr.fam : IpAddr → IpFam
  | .v4 _ => .V4
  | .v6 _ => .V6

/-- Well-formedness of an address value: it fits the family's width. -/
def IpAddr.wf : IpAddr → Prop
  | .v4 v => v < 2 ^ 32
  | .v6 v => v < 2 ^ 128

instance : DecidablePred IpAddr.wf := fun a => by
  cases a <;> (simp [IpAddr.wf]; infer_instance)

/-- A CIDR block (`Cidr` in structs.rs): an address together with a
prefix length.  The prefix field is a `u8` in the source; we keep it as
a `Nat` (callers clamp with `min` exactly as the source does).  The
source field name is `prefix`; it is called `pfx` here. -/
structure Cidr where
  addr : IpAddr
  pfx : Nat
deriving DecidableEq, Repr

/-- Inclusive integer range of addresses tagged with a family
(`Range` in structs.rs).  The source's inclusive `end` field is called
`endv` here (`end` is a Lean keyword). -/
structure Range where
  fam : IpFam
  beg : Nat
  endv : Nat
deriving DecidableEq, Repr

/-- Sort key of a range (`Range::cmp_key`): family first (V4 before
V6), then begin, then end. -/
def Range.cmp_key (r : Range) : Nat × Nat × Nat :=
  let famKey : Nat := match r.fam with
    | .V4 => 0
    | .V6 => 1
  (famKey, r.beg, r.endv)

/-- Numeric key of a family, as used inside `Range::cmp_key`. -/
def IpFam.key : IpFam → Nat
  | .V4 => 0
  | .V6 => 1

/-- Well-formed range: non-empty interval whose end fits the family
width (the invariant maintained by all constructors in the source). -/
def Range.wf (r : Range) : Prop :=
  r.beg ≤ r.endv ∧ r.endv < 2 ^ r.fam.bits

instance : DecidablePred Range.wf := fun r => by
  unfold Range.wf; infer_instance

/-- Count of trailing zero bits, with fuel; `ctzAux 128 n` agrees with
`u128::trailing_zeros` on every `n < 2^128` (and returns 128 at 0). -/
def ctzAux : Nat → Nat → Nat
  | 0, _ => 0
  | fuel + 1, n => if n % 2 = 0 then ctzAux fuel (n / 2) + 1 else 0

/-- `u128::trailing_zeros` (128 at 0). -/
def ctz128 (n : Nat) : Nat := ctzAux 128 n

/-- `u128::leading_zeros`: 128 minus the bit length. -/
def leadingZeros128 (n : Nat) : Nat :=
  128 - (if n = 0 then 0 else Nat.log2 n + 1)

/-- floor(log2 x) as computed by `floor_log2_u128` in collapsing.rs:
`127u8.saturating_sub(x.leading_zeros() as u8)` (Nat subtraction is
already saturating). -/
def floor_log2_u128 (x : Nat) : Nat := 127 - leadingZeros128 x

/-- Prefix mask (`mask_u128` in collapsing.rs): returns a u128 with the
top `pfx` bits of the `bits`-wide value set and the remaining low bits
zero; `!0u128` when `pfx ≥ bits`.  `!x` on u128 is `U128MAX - x`. -/
def mask_u128 (bits pfx : Nat) : Nat :=
  if pfx = 0 then 0
  else if pfx ≥ bits then U128MAX
  else
    let all : Nat := if bits = 128 then U128MAX else 2 ^ bits - 1
    let low : Nat := bits - pfx
    Nat.land all (U128MAX - (2 ^ low - 1))

/-- Conversion of the working integer back to a typed address
(`int_to_ip` in collapsing.rs; the `as u32` narrowing for V4 is the
`% 2^32`). -/
def int_to_ip (fam : IpFam) (v : Nat) : IpAddr :=
  match fam with
  | .V4 => .v4 (v % 2 ^ 32)
  | .V6 => .v6 (v % 2 ^ 128)

/-- Convert a CIDR block to its covering inclusive range
(`cidr_to_range` in collapsing.rs).  For V4 the mask is narrowed
`as u32` (`% 2^32`), and `!mask` on a `u32` is `2^32 - 1 - mask`. -/
def cidr_to_range (c : Cidr) : Range :=
  match c.addr with
  | .v4 a =>
      let pre := min c.pfx IPV4_BITS
      let mask := mask_u128 IPV4_BITS pre % 2 ^ 32
      let net := Nat.land a mask
      let endv := Nat.lor net (2 ^ 32 - 1 - mask)
      ⟨.V4, net, endv⟩
  | .v6 a =>
      let pre := min c.pfx IPV6_BITS
      let mask := mask_u128 IPV6_BITS pre
      let net := Nat.land a mask
      let endv := Nat.lor net (U128MAX - mask)
      ⟨.V6, net, endv⟩

/- ------------------------------------------------------------------ -/
/- Basic arithmetic lemmas.                                            -/
/- ------------------------------------------------------------------ -/

theorem two_pow_sub_two_pow {a b : Nat} (h : b ≤ a) :
    2 ^ a - 2 ^ b = 2 ^ b * (2 ^ (a - b) - 1) := by
  have hpow : (2 : Nat) ^ b * 2 ^ (a - b) = 2 ^ a := by
    rw [← pow_add]
    congr 1
    omega
  calc 2 ^ a - 2 ^ b = 2 ^ b * 2 ^ (a - b) - 2 ^ b * 1 := by rw [hpow, Nat.mul_one]
    _ = 2 ^ b * (2 ^ (a - b) - 1) := by rw [← Nat.mul_sub]

theorem testBit_two_pow_sub_two_pow {a b : Nat} (h : b ≤ a) (i : Nat) :
    Nat.testBit (2 ^ a - 2 ^ b) i = decide (b ≤ i ∧ i < a) := by
  rw [two_pow_sub_two_pow h, Nat.testBit_mul_pow_two]
  rcases Nat.lt_or_ge i b with hib | hib
  · simp [Nat.not_le.mpr hib, hib]
  · simp only [ge_iff_le, hib, decide_True, Bool.true_and,
      Nat.testBit_two_pow_sub_one]
    have : i - b < a - b ↔ i < a := by omega
    simp [this, hib]

theorem land_ones_sub {w low : Nat} (hlw : low ≤ w) (hw : w ≤ 128) :
    Nat.land (2 ^ w - 1) (2 ^ 128 - 2 ^ low) = 2 ^ w - 2 ^ low := by
  apply Nat.eq_of_testBit_eq
  intro i
  have h1 : (2 : Nat) ^ w - 1 = 2 ^ w - 2 ^ 0 := by norm_num
  rw [show Nat.land (2 ^ w - 1) (2 ^ 128 - 2 ^ low)
        = (2 ^ w - 1) &&& (2 ^ 128 - 2 ^ low) from rfl,
    Nat.testBit_and, h1,
    testBit_two_pow_sub_two_pow (Nat.zero_le w),
    testBit_two_pow_sub_two_pow (le_trans hlw hw),
    testBit_two_pow_sub_two_pow hlw]
  rcases Nat.lt_or_ge i low with h2 | h2
  · simp [h2, Nat.not_le.mpr h2]
  · by_cases h3 : i < w
    · simp [h2, h3, lt_of_lt_of_le h3 hw]
    · simp [h3, fun (hc : low ≤ i ∧ i < w) => h3 hc.2]

/-- Closed form of `mask_u128` for a prefix strictly inside the width:
exactly the top `pfx` bits of the `bits`-wide value. -/
theorem mask_u128_mid {bits pfx : Nat} (hb : bits = 32 ∨ bits = 128)
    (h0 : 0 < pfx) (hlt : pfx < bits) :
    mask_u128 bits pfx = (2 ^ pfx - 1) * 2 ^ (bits - pfx) := by
  have hne : pfx ≠ 0 := Nat.pos_iff_ne_zero.mp h0
  have hnge : ¬ pfx ≥ bits := Nat.not_le.mpr hlt
  have hsub : U128MAX - (2 ^ (bits - pfx) - 1) = 2 ^ 128 - 2 ^ (bits - pfx) := by
    have hle : (2 : Nat) ^ (bits - pfx) ≤ 2 ^ 128 := by
      apply Nat.pow_le_pow_right (by norm_num)
      rcases hb with h | h <;> omega
    have : (1 : Nat) ≤ 2 ^ (bits - pfx) := Nat.one_le_two_pow
    unfold U128MAX
    omega
  have hrhs : 2 ^ bits - 2 ^ (bits - pfx) = (2 ^ pfx - 1) * 2 ^ (bits - pfx) := by
    rw [two_pow_sub_two_pow (by omega : bits - pfx ≤ bits)]
    have : bits - (bits - pfx) = pfx := by omega
    rw [this, Nat.mul_comm]
  rcases hb with h | h
  · subst h
    have hdef : mask_u128 32 pfx
        = Nat.land (2 ^ 32 - 1) (U128MAX - (2 ^ (32 - pfx) - 1)) := by
      unfold mask_u128
      rw [if_neg hne, if_neg hnge]
      norm_num
    rw [hdef, hsub, land_ones_sub (by omega) (by norm_num)]
    exact hrhs
  · subst h
    have hdef : mask_u128 128 pfx
        = Nat.land (2 ^ 128 - 1) (U128MAX - (2 ^ (128 - pfx) - 1)) := by
      unfold mask_u128
      rw [if_neg hne, if_neg hnge]
      norm_num [U128MAX]
    rw [hdef, hsub, land_ones_sub (by omega) (by norm_num)]
    exact hrhs

/- ------------------------------------------------------------------ -/
/- Range-to-CIDR decomposition (`range_to_cidrs` in collapsing.rs).    -/
/- ------------------------------------------------------------------ -/

/-- The per-iteration prefix choice of the `range_to_cidrs` loop:
`max_align_prefix = bits.saturating_sub(tz.min(bits))` from the count
of trailing zeros of `start`, `max_fit_prefix = bits - floor_log2
(remaining)` from the remaining length, and the chosen prefix is the
larger of the two. -/
def rtcPfx (bits endv start : Nat) : Nat :=
  max (bits - min (ctz128 start) bits)
    (bits - floor_log2_u128 (satAdd128 (endv - start) 1))

/-- The `while start <= end` loop of `range_to_cidrs`, translated
statement by statement and indexed by fuel: `none` means the loop did
not finish within `fuel` iterations (so `∀ fuel, … = none` expresses
that the Rust loop never terminates).  `acc` holds the emitted blocks
in reverse order; the advance of `start` is the source's
`start.saturating_add(block_size)`. -/
def rtcGo (fam : IpFam) (bits endv : Nat) :
    Nat → Nat → List Cidr → Option (List Cidr)
  | 0, start, acc => if start ≤ endv then none else some acc.reverse
  | fuel + 1, start, acc =>
    if start ≤ endv then
      let pfx := rtcPfx bits endv start
      let c : Cidr := ⟨int_to_ip fam start, pfx⟩
      if bits = 128 ∧ pfx = 0 then some (c :: acc).reverse
      else rtcGo fam bits endv fuel (satAdd128 start (2 ^ (bits - pfx))) (c :: acc)
    else some acc.reverse

/-- Decompose an inclusive range into CIDRs (`range_to_cidrs`).  The
full-v6-space special case is taken verbatim from the source; the loop
runs with fuel `endv + 2`, which exceeds the iteration count whenever
the source loop terminates, so `none` marks exactly the inputs on which
the source loop runs forever. -/
def range_to_cidrs (r : Range) : Option (List Cidr) :=
  let bits := r.fam.bits
  if bits = IPV6_BITS ∧ r.beg = 0 ∧ r.endv = U128MAX then
    some [⟨.v6 0, 0⟩]
  else
    rtcGo r.fam bits r.endv (r.endv + 2) r.beg []

/- ------------------------------------------------------------------ -/
/- C6: mask_u128.                                                      -/
/- ------------------------------------------------------------------ -/

/-- C6 (counterexample): the claim says `mask_u128 (width, prefix)`
with `prefix ≥ width` yields the all-ones value **of that width**; the
code returns `!0u128`, i.e. all 128 ones, even for width 32.  At
`(32, 32)` the result is `2^128 - 1`, not `2^32 - 1`. -/
theorem C6_counterexample :
    mask_u128 32 32 = 2 ^ 128 - 1 ∧ mask_u128 32 32 ≠ 2 ^ 32 - 1 := by
  constructor <;> decide

/-- C6 (amended): for widths 32 and 128, `mask_u128 width prefix` is
the integer with exactly the top `prefix` bits of the width-bit value
set when `0 < prefix < width`; `prefix = 0` yields zero; and
`prefix ≥ width` yields the all-ones value of the full 128-bit working
integer (`2^128 - 1`, which callers narrow to the width). -/
theorem C6_mask_u128_amended (bits pfx : Nat) (hb : bits = 32 ∨ bits = 128) :
    (pfx = 0 → mask_u128 bits pfx = 0) ∧
    (0 < pfx → pfx < bits → mask_u128 bits pfx = (2 ^ pfx - 1) * 2 ^ (bits - pfx)) ∧
    (bits ≤ pfx → mask_u128 bits pfx = 2 ^ 128 - 1) := by
  refine ⟨fun h0 => ?_, fun h0 hlt => mask_u128_mid hb h0 hlt, fun hge => ?_⟩
  · unfold mask_u128
    rw [if_pos h0]
  · have hne : pfx ≠ 0 := by rcases hb with h | h <;> omega
    unfold mask_u128
    rw [if_neg hne, if_pos hge]
    rfl

/-- C6 (witness): the amended theorem applied at `(32, 24)`. -/
theorem C6_witness :
    mask_u128 32 24 = (2 ^ 24 - 1) * 2 ^ (32 - 24) :=
  (C6_mask_u128_amended 32 24 (Or.inl rfl)).2.1 (by decide) (by decide)

/- ------------------------------------------------------------------ -/
/- Divergence of the decomposition loop at the top of the v6 space.    -/
/- ------------------------------------------------------------------ -/

theorem floor_log2_u128_le (x : Nat) : floor_log2_u128 x ≤ 127 :=
  Nat.sub_le 127 _

/-- For v6 the in-loop prefix is always at least 1: the fit bound is
`128 - floor_log2 ≥ 1` since `floor_log2` never exceeds 127. -/
theorem rtcPfx_v6_pos (endv start : Nat) : 1 ≤ rtcPfx 128 endv start := by
  unfold rtcPfx
  have := floor_log2_u128_le (satAdd128 (endv - start) 1)
  omega

/-- With `endv = u128::MAX`, the saturating advance keeps
`start ≤ endv` forever, so the loop never finishes: the in-loop prefix
is always at least 1 (the fit bound is `128 - floor_log2 ≥ 1`), the
v6 guard never fires, and `satAdd128` caps the next start at
`U128MAX ≤ endv`. -/
theorem rtcGo_top_none (fuel : Nat) :
    ∀ start acc, start ≤ U128MAX →
      rtcGo IpFam.V6 128 U128MAX fuel start acc = none := by
  induction fuel with
  | zero =>
      intro start acc hs
      simp [rtcGo, hs]
  | succ n ih =>
      intro start acc hs
      have hfit : 1 ≤ 128 - floor_log2_u128 (satAdd128 (U128MAX - start) 1) := by
        have := floor_log2_u128_le (satAdd128 (U128MAX - start) 1)
        omega
      simp only [rtcGo, if_pos hs]
      rw [if_neg]
      · exact ih _ _ (Nat.min_le_right _ _)
      · intro hc
        have h2 := hc.2
        have h3 := rtcPfx_v6_pos U128MAX start
        omega

/-- C2 (code bug): the decomposition loop never terminates on the
well-formed v6 range whose inclusive end is the maximum address and
whose begin is above zero.  Shown here at `beg = end = u128::MAX`
(reachable e.g. via `collapse_ranges` on the single-address range at
`ffff:…:ffff`): after emitting that address as a `/128`, the saturating
advance leaves `start = u128::MAX ≤ end`, so the loop repeats forever —
the fuel-indexed loop returns `none` for every fuel. -/
theorem C2_range_to_cidrs_diverges :
    range_to_cidrs ⟨IpFam.V6, U128MAX, U128MAX⟩ = none ∧
    ∀ fuel acc, rtcGo IpFam.V6 128 U128MAX fuel U128MAX acc = none := by
  constructor
  · unfold range_to_cidrs
    rw [if_neg]
    · exact rtcGo_top_none _ _ _ (le_refl _)
    · intro hc
      have h1 : U128MAX = 0 := hc.2.1
      exact absurd h1 (by decide)
  · exact fun fuel acc => rtcGo_top_none fuel _ acc (le_refl _)

/-- C1 (counterexample): on the well-formed range `[1, u128::MAX]` of
family V6 the decomposition loop produces no output at all (it never
terminates), so the produced-blocks coverage property claimed for
every well-formed range fails there. -/
theorem C1_counterexample :
    range_to_cidrs ⟨IpFam.V6, 1, U128MAX⟩ = none ∧
    ¬ ∃ fuel out, rtcGo IpFam.V6 128 U128MAX fuel 1 [] = some out := by
  constructor
  · unfold range_to_cidrs
    rw [if_neg]
    · exact rtcGo_top_none _ _ _ (by decide)
    · intro hc
      exact absurd hc.2.1 (by decide)
  · rintro ⟨fuel, out, hout⟩
    rw [rtcGo_top_none fuel 1 [] (by decide)] at hout
    exact Option.noConfusion hout

/- ------------------------------------------------------------------ -/
/- Termination and exact coverage of the loop away from the bug.       -/
/- ------------------------------------------------------------------ -/

theorem satAdd128_eq {a b : Nat} (h : a + b ≤ U128MAX) :
    satAdd128 a b = a + b :=
  min_eq_left h

theorem ctzAux_dvd : ∀ fuel n, 2 ^ ctzAux fuel n ∣ n := by
  intro fuel
  induction fuel with
  | zero => intro n; simp [ctzAux]
  | succ f ih =>
      intro n
      unfold ctzAux
      by_cases h : n % 2 = 0
      · rw [if_pos h, pow_succ]
        have h2 : 2 ∣ n := Nat.dvd_of_mod_eq_zero h
        have h3 : n / 2 * 2 = n := Nat.div_mul_cancel h2
        have h4 : 2 ^ ctzAux f (n / 2) * 2 ∣ n / 2 * 2 :=
          mul_dvd_mul_right (ih (n / 2)) 2
        rwa [h3] at h4
      · rw [if_neg h]
        simp

theorem ctz128_dvd (n : Nat) : 2 ^ ctz128 n ∣ n := ctzAux_dvd 128 n

theorem floor_log2_u128_eq {x : Nat} (h1 : 1 ≤ x) (h2 : x < 2 ^ 128) :
    floor_log2_u128 x = Nat.log 2 x := by
  unfold floor_log2_u128 leadingZeros128
  rw [if_neg (by omega)]
  rw [Nat.log2_eq_log_two]
  have hlt : Nat.log 2 x < 128 := Nat.log_lt_of_lt_pow (by omega) h2
  omega

/-- Bits of a multiple of `2^k` below position `k` are all clear. -/
theorem testBit_eq_false_of_dvd {n k i : Nat} (hd : 2 ^ k ∣ n) (hik : i < k) :
    n.testBit i = false := by
  obtain ⟨q, hq⟩ := hd
  subst hq
  rw [Nat.testBit_mul_pow_two]
  simp [Nat.not_le.mpr hik]

/-- A `2^low`-aligned value below `2^w` is untouched by the mask with
the low `low` bits cleared. -/
theorem land_mask_self {n low w : Nat} (hw : n < 2 ^ w) (hd : 2 ^ low ∣ n)
    (hlw : low ≤ w) : Nat.land n (2 ^ w - 2 ^ low) = n := by
  apply Nat.eq_of_testBit_eq
  intro i
  rw [show Nat.land n (2 ^ w - 2 ^ low) = n &&& (2 ^ w - 2 ^ low) from rfl,
    Nat.testBit_and, testBit_two_pow_sub_two_pow hlw]
  rcases Nat.lt_or_ge i low with h1 | h1
  · rw [testBit_eq_false_of_dvd hd h1]
    simp
  · rcases Nat.lt_or_ge i w with h2 | h2
    · simp [h1, h2]
    · have : n.testBit i = false :=
        Nat.testBit_lt_two_pow (lt_of_lt_of_le hw (Nat.pow_le_pow_right (by norm_num) h2))
      rw [this]
      simp

theorem mask_u128_128_eq {pfx : Nat} (hp : pfx ≤ 128) :
    mask_u128 128 pfx = 2 ^ 128 - 2 ^ (128 - pfx) := by
  rcases Nat.eq_zero_or_pos pfx with h0 | h0
  · subst h0
    simp [mask_u128]
  · rcases Nat.lt_or_ge pfx 128 with hlt | hge
    · have h2 := two_pow_sub_two_pow (show 128 - pfx ≤ 128 by omega)
      rw [show 128 - (128 - pfx) = pfx from by omega] at h2
      rw [mask_u128_mid (Or.inr rfl) h0 hlt, h2, mul_comm]
    · have hpe : pfx = 128 := le_antisymm hp hge
      subst hpe
      unfold mask_u128
      rw [if_neg (by omega), if_pos (le_refl _)]
      norm_num [U128MAX]

theorem mask_u128_32_eq {pfx : Nat} (hp : pfx ≤ 32) :
    mask_u128 32 pfx % 2 ^ 32 = 2 ^ 32 - 2 ^ (32 - pfx) := by
  rcases Nat.eq_zero_or_pos pfx with h0 | h0
  · subst h0
    simp [mask_u128]
  · rcases Nat.lt_or_ge pfx 32 with hlt | hge
    · have h2 := two_pow_sub_two_pow (show 32 - pfx ≤ 32 by omega)
      rw [show 32 - (32 - pfx) = pfx from by omega] at h2
      rw [mask_u128_mid (Or.inl rfl) h0 hlt, ← mul_comm (2 ^ (32 - pfx)) _, ← h2]
      apply Nat.mod_eq_of_lt
      have h3 : (1 : Nat) ≤ 2 ^ (32 - pfx) := Nat.one_le_two_pow
      have h4 : (1 : Nat) ≤ 2 ^ 32 := Nat.one_le_two_pow
      omega
    · have hpe : pfx = 32 := le_antisymm hp hge
      subst hpe
      decide

/-- A `2^low`-aligned value or-ed with the low ones is their sum. -/
theorem lor_low_add {n low : Nat} (hd : 2 ^ low ∣ n) :
    Nat.lor n (2 ^ low - 1) = n + (2 ^ low - 1) := by
  obtain ⟨q, hq⟩ := hd
  subst hq
  have hb : 2 ^ low - 1 < 2 ^ low := by
    have : (1 : Nat) ≤ 2 ^ low := Nat.one_le_two_pow
    omega
  exact (Nat.mul_add_lt_is_or hb q).symm

/-- The interval a block emitted by the decomposition loop covers: for
an aligned start, `cidr_to_range` maps the block at `start` with the
chosen prefix back to exactly `[start, start + blocksize - 1]`. -/
theorem cidr_to_range_aligned (fam : IpFam) {start pfx : Nat}
    (hp : pfx ≤ fam.bits) (hs : start < 2 ^ fam.bits)
    (hd : 2 ^ (fam.bits - pfx) ∣ start) :
    cidr_to_range ⟨int_to_ip fam start, pfx⟩
      = ⟨fam, start, start + (2 ^ (fam.bits - pfx) - 1)⟩ := by
  cases fam with
  | V4 =>
      have hp' : pfx ≤ 32 := hp
      have hs' : start < 2 ^ 32 := hs
      have hd' : 2 ^ (32 - pfx) ∣ start := hd
      have hmod : start % 2 ^ 32 = start := Nat.mod_eq_of_lt hs'
      have hcompl : 2 ^ 32 - 1 - (2 ^ 32 - 2 ^ (32 - pfx)) = 2 ^ (32 - pfx) - 1 := by
        have h1 : (1 : Nat) ≤ 2 ^ (32 - pfx) := Nat.one_le_two_pow
        have h2 : (2 : Nat) ^ (32 - pfx) ≤ 2 ^ 32 :=
          Nat.pow_le_pow_right (by norm_num) (by omega)
        omega
      simp only [cidr_to_range, int_to_ip, IPV4_BITS, hmod]
      rw [min_eq_left hp', mask_u128_32_eq hp',
        land_mask_self hs' hd' (by omega), hcompl, lor_low_add hd']
      rfl
  | V6 =>
      have hp' : pfx ≤ 128 := hp
      have hs' : start < 2 ^ 128 := hs
      have hd' : 2 ^ (128 - pfx) ∣ start := hd
      have hmod : start % 2 ^ 128 = start := Nat.mod_eq_of_lt hs'
      have hcompl : U128MAX - (2 ^ 128 - 2 ^ (128 - pfx)) = 2 ^ (128 - pfx) - 1 := by
        have h1 : (1 : Nat) ≤ 2 ^ (128 - pfx) := Nat.one_le_two_pow
        have h2 : (2 : Nat) ^ (128 - pfx) ≤ 2 ^ 128 :=
          Nat.pow_le_pow_right (by norm_num) (by omega)
        unfold U128MAX
        omega
      simp only [cidr_to_range, int_to_ip, IPV6_BITS, hmod]
      rw [min_eq_left hp', mask_u128_128_eq hp',
        land_mask_self hs' hd' (by omega), hcompl, lor_low_add hd']
      rfl

/-- A list of blocks whose `cidr_to_range` intervals tile `[lo, hi]`
left to right without gaps or overlaps. -/
inductive ChainCover (fam : IpFam) : List Cidr → Nat → Nat → Prop where
  | nil : ∀ lo hi, lo = hi + 1 → ChainCover fam [] lo hi
  | cons : ∀ c l lo hi m, lo ≤ m → m ≤ hi →
      cidr_to_range c = ⟨fam, lo, m⟩ →
      ChainCover fam l (m + 1) hi →
      ChainCover fam (c :: l) lo hi

theorem ChainCover.le_beg {fam : IpFam} {l : List Cidr} {lo hi : Nat}
    (h : ChainCover fam l lo hi) :
    ∀ c ∈ l, lo ≤ (cidr_to_range c).beg := by
  induction h with
  | nil lo hi _ => intro c hc; exact absurd hc (List.not_mem_nil c)
  | cons c l lo hi m h1 h2 h3 h4 ih =>
      intro d hd
      rcases List.mem_cons.mp hd with rfl | hd'
      · rw [h3]
      · exact le_trans (by omega) (ih d hd')

theorem ChainCover.union {fam : IpFam} {l : List Cidr} {lo hi : Nat}
    (h : ChainCover fam l lo hi) (a : Nat) :
    (∃ c ∈ l, (cidr_to_range c).fam = fam ∧
      (cidr_to_range c).beg ≤ a ∧ a ≤ (cidr_to_range c).endv)
      ↔ (lo ≤ a ∧ a ≤ hi) := by
  induction h with
  | nil lo hi hlo =>
      simp only [List.not_mem_nil, false_and, exists_false,
        exists_prop, false_iff]
      omega
  | cons c l lo hi m h1 h2 h3 h4 ih =>
      constructor
      · rintro ⟨d, hd, hfam, hba, hae⟩
        rcases List.mem_cons.mp hd with rfl | hd'
        · rw [h3] at hba hae
          exact ⟨hba, le_trans hae h2⟩
        · have := ih.mp ⟨d, hd', hfam, hba, hae⟩
          omega
      · rintro ⟨hla, hah⟩
        rcases le_or_lt a m with ham | ham
        · exact ⟨c, List.mem_cons_self c l, by rw [h3], by rw [h3]; exact hla,
            by rw [h3]; exact ham⟩
        · obtain ⟨d, hd, hp⟩ := ih.mpr ⟨by omega, hah⟩
          exact ⟨d, List.mem_cons_of_mem c hd, hp⟩

theorem ChainCover.pairwise {fam : IpFam} {l : List Cidr} {lo hi : Nat}
    (h : ChainCover fam l lo hi) :
    l.Pairwise (fun c d => (cidr_to_range c).endv < (cidr_to_range d).beg) := by
  induction h with
  | nil _ _ _ => exact List.Pairwise.nil
  | cons c l lo hi m h1 h2 h3 h4 ih =>
      refine List.Pairwise.cons ?_ ih
      intro d hd
      have hb := ChainCover.le_beg h4 d hd
      have he : (cidr_to_range c).endv = m := by rw [h3]
      omega

theorem rtcPfx_le_bits (bits endv start : Nat) :
    rtcPfx bits endv start ≤ bits := by
  unfold rtcPfx
  omega

theorem rtcPfx_fit {bits endv start : Nat} (h1 : start ≤ endv)
    (h2 : endv < U128MAX) :
    2 ^ (bits - rtcPfx bits endv start) ≤ endv - start + 1 := by
  have hone : (1 : Nat) ≤ 2 ^ 128 := Nat.one_le_two_pow
  have hsa : satAdd128 (endv - start) 1 = endv - start + 1 := by
    apply satAdd128_eq
    omega
  have hlt : endv - start + 1 < 2 ^ 128 := by
    unfold U128MAX at h2
    omega
  have hflog : floor_log2_u128 (endv - start + 1) = Nat.log 2 (endv - start + 1) :=
    floor_log2_u128_eq (by omega) hlt
  have hple : bits - rtcPfx bits endv start ≤ Nat.log 2 (endv - start + 1) := by
    unfold rtcPfx
    rw [hsa, hflog]
    omega
  calc 2 ^ (bits - rtcPfx bits endv start)
      ≤ 2 ^ Nat.log 2 (endv - start + 1) :=
        Nat.pow_le_pow_right (by norm_num) hple
    _ ≤ endv - start + 1 := Nat.pow_log_le_self 2 (by omega)

theorem rtcPfx_align (bits endv start : Nat) :
    2 ^ (bits - rtcPfx bits endv start) ∣ start := by
  have h1 : bits - rtcPfx bits endv start ≤ ctz128 start := by
    unfold rtcPfx
    omega
  exact dvd_trans (pow_dvd_pow 2 h1) (ctz128_dvd start)

/-- Termination and exact tiling of the `range_to_cidrs` loop for every
well-formed range whose end is below `u128::MAX` (away from the C2
divergence): the loop terminates with the emitted blocks appended to
the accumulator, and those blocks tile `[start, endv]`. -/
theorem rtcGo_spec (fam : IpFam) (endv : Nat)
    (hend : endv < 2 ^ fam.bits) (hsat : endv < U128MAX) :
    ∀ n start fuel acc, endv + 1 - start = n → n ≤ fuel → start ≤ endv + 1 →
      ∃ l, rtcGo fam fam.bits endv fuel start acc = some (acc.reverse ++ l) ∧
        ChainCover fam l start endv := by
  intro n
  induction n using Nat.strong_induction_on with
  | _ n ih =>
    intro start fuel acc hn hfuel hstart
    rcases Nat.lt_or_ge endv start with hgt | hge
    · have hse : ¬ start ≤ endv := Nat.not_le.mpr hgt
      have hstart' : start = endv + 1 := by omega
      refine ⟨[], ?_, ChainCover.nil _ _ hstart'⟩
      cases fuel with
      | zero => simp [rtcGo, hse]
      | succ f => simp [rtcGo, hse]
    · have hle : start ≤ endv := hge
      have hn1 : 1 ≤ n := by omega
      cases fuel with
      | zero => omega
      | succ f =>
        have hple := rtcPfx_le_bits fam.bits endv start
        have hfit := @rtcPfx_fit fam.bits endv start hle hsat
        have halign := rtcPfx_align fam.bits endv start
        have hpos : (1 : Nat) ≤ 2 ^ (fam.bits - rtcPfx fam.bits endv start) :=
          Nat.one_le_two_pow
        have hguard : ¬ (fam.bits = 128 ∧ rtcPfx fam.bits endv start = 0) := by
          rintro ⟨hb, hz⟩
          rw [hb] at hz
          have := rtcPfx_v6_pos endv start
          omega
        have hadv : satAdd128 start (2 ^ (fam.bits - rtcPfx fam.bits endv start))
            = start + 2 ^ (fam.bits - rtcPfx fam.bits endv start) := by
          apply satAdd128_eq
          unfold U128MAX
          unfold U128MAX at hsat
          omega
        obtain ⟨l', hl', hcov'⟩ :=
          ih (endv + 1 - (start + 2 ^ (fam.bits - rtcPfx fam.bits endv start)))
            (by omega)
            (start + 2 ^ (fam.bits - rtcPfx fam.bits endv start)) f
            ((⟨int_to_ip fam start, rtcPfx fam.bits endv start⟩ : Cidr) :: acc)
            rfl (by omega) (by omega)
        refine ⟨⟨int_to_ip fam start, rtcPfx fam.bits endv start⟩ :: l', ?_, ?_⟩
        · simp only [rtcGo, if_pos hle]
          rw [if_neg hguard, hadv, hl', List.reverse_cons, List.append_assoc,
            List.singleton_append]
        · refine ChainCover.cons _ _ _ _
            (start + 2 ^ (fam.bits - rtcPfx fam.bits endv start) - 1)
            (by omega) (by omega) ?_ ?_
          · rw [cidr_to_range_aligned fam hple (by omega) halign]
            congr 1
            omega
          · rw [show start + 2 ^ (fam.bits - rtcPfx fam.bits endv start) - 1 + 1
                = start + 2 ^ (fam.bits - rtcPfx fam.bits endv start) from by omega]
            exact hcov'

/-- C1 (amended): for every well-formed `Range` except the V6 ranges
with inclusive end `u128::MAX` and begin above zero (on which the
decomposition loop never terminates — see the C2 bug), `range_to_cidrs`
terminates and produces blocks whose `[network, broadcast]` intervals
(computed by the source's own `cidr_to_range`) cover exactly
`{beg..end}` in the range's family, with no two blocks overlapping. -/
theorem C1_range_to_cidrs_amended (r : Range) (hwf : r.wf)
    (hnb : ¬ (r.fam = IpFam.V6 ∧ r.endv = U128MAX ∧ 0 < r.beg)) :
    ∃ l, range_to_cidrs r = some l ∧
      (∀ a : Nat,
        (∃ c ∈ l, (cidr_to_range c).fam = r.fam ∧
          (cidr_to_range c).beg ≤ a ∧ a ≤ (cidr_to_range c).endv)
          ↔ (r.beg ≤ a ∧ a ≤ r.endv)) ∧
      l.Pairwise (fun c d =>
        (cidr_to_range c).endv < (cidr_to_range d).beg ∨
        (cidr_to_range d).endv < (cidr_to_range c).beg) := by
  obtain ⟨hbe, hew⟩ := hwf
  by_cases hfull : r.fam.bits = IPV6_BITS ∧ r.beg = 0 ∧ r.endv = U128MAX
  · obtain ⟨hb, h0, hM⟩ := hfull
    have hf6 : r.fam = IpFam.V6 := by
      cases hfam : r.fam with
      | V4 => rw [hfam] at hb; exact absurd hb (by decide)
      | V6 => rfl
    have hc : cidr_to_range ⟨.v6 0, 0⟩ = ⟨IpFam.V6, 0, U128MAX⟩ := by decide
    refine ⟨[⟨.v6 0, 0⟩], ?_, ?_, ?_⟩
    · unfold range_to_cidrs
      rw [if_pos ⟨hb, h0, hM⟩]
    · intro a
      constructor
      · rintro ⟨c, hcm, hfam, hba, hae⟩
        rcases List.mem_cons.mp hcm with rfl | hnil
        · rw [hc] at hba hae
          rw [h0, hM]
          exact ⟨Nat.zero_le a, hae⟩
        · exact absurd hnil (List.not_mem_nil c)
      · rintro ⟨hla, hah⟩
        refine ⟨⟨.v6 0, 0⟩, List.mem_cons_self _ _, ?_, ?_, ?_⟩
        · rw [hc, hf6]
        · rw [hc]
          exact Nat.zero_le a
        · rw [hc]
          rw [hM] at hah
          exact hah
    · simp
  · have hsat : r.endv < U128MAX := by
      cases hfam : r.fam with
      | V4 =>
          have hb : r.fam.bits = 32 := by rw [hfam]; rfl
          rw [hb] at hew
          have h32 : (2 : Nat) ^ 32 ≤ U128MAX := by decide
          omega
      | V6 =>
          have hb : r.fam.bits = 128 := by rw [hfam]; rfl
          rw [hb] at hew
          rcases Nat.lt_or_ge r.endv U128MAX with h | h
          · exact h
          · have hone : (1 : Nat) ≤ 2 ^ 128 := Nat.one_le_two_pow
            have hM : r.endv = U128MAX := by
              unfold U128MAX at h ⊢
              omega
            rcases Nat.eq_zero_or_pos r.beg with h0 | h0
            · exact absurd ⟨hb, h0, hM⟩ hfull
            · exact absurd ⟨hfam, hM, h0⟩ hnb
    obtain ⟨l, hl, hcov⟩ :=
      rtcGo_spec r.fam r.endv hew hsat (r.endv + 1 - r.beg) r.beg (r.endv + 2) []
        rfl (by omega) (by omega)
    refine ⟨l, ?_, fun a => hcov.union a, (hcov.pairwise).imp fun h => Or.inl h⟩
    unfold range_to_cidrs
    rw [if_neg hfull]
    simpa using hl

/-- C1 (witness): the amended theorem applied at the concrete v4 range
`[4, 7]` (i.e. 172.16.0.4–172.16.0.7 scaled down to raw integers). -/
theorem C1_witness :
    ∃ l, range_to_cidrs ⟨IpFam.V4, 4, 7⟩ = some l ∧
      (∀ a : Nat,
        (∃ c ∈ l, (cidr_to_range c).fam = Range.fam ⟨IpFam.V4, 4, 7⟩ ∧
          (cidr_to_range c).beg ≤ a ∧ a ≤ (cidr_to_range c).endv)
          ↔ (Range.beg ⟨IpFam.V4, 4, 7⟩ ≤ a ∧ a ≤ Range.endv ⟨IpFam.V4, 4, 7⟩)) ∧
      l.Pairwise (fun c d =>
        (cidr_to_range c).endv < (cidr_to_range d).beg ∨
        (cidr_to_range d).endv < (cidr_to_range c).beg) :=
  C1_range_to_cidrs_amended ⟨IpFam.V4, 4, 7⟩ (by constructor <;> decide) (by decide)

/- ------------------------------------------------------------------ -/
/- Exact merge sweep (`merge_ranges` in collapsing.rs).                -/
/- ------------------------------------------------------------------ -/

/-- Lexicographic order on `Range.cmp_key` = (family key, beg, end);
this is the order `sort_by(cmp_key)` sorts by in the source. -/
def keyLe (a b : Range) : Prop :=
  a.fam.key < b.fam.key ∨
    (a.fam.key = b.fam.key ∧
      (a.beg < b.beg ∨ (a.beg = b.beg ∧ a.endv ≤ b.endv)))

instance : ∀ a b : Range, Decidable (keyLe a b) := fun a b => by
  unfold keyLe
  infer_instance

/-- The exact merge sweep of `merge_ranges`, with the running "current
merged range" made explicit: a next range is absorbed when it has the
same family and `r.beg <= cur.end.saturating_add(1)`, extending the end
to the max of the two; otherwise the current range is emitted and `r`
starts a new accumulator. -/
def mergeGo (cur : Range) : List Range → List Range
  | [] => [cur]
  | r :: rest =>
      if cur.fam = r.fam ∧ r.beg ≤ satAdd128 cur.endv 1 then
        mergeGo ⟨cur.fam, cur.beg, max cur.endv r.endv⟩ rest
      else
        cur :: mergeGo r rest

/-- Merge overlapping/adjacent ranges within each family
(`merge_ranges`; input must be sorted). -/
def merge_ranges : List Range → List Range
  | [] => []
  | r :: rest => mergeGo r rest

/-- Address-set membership of a list of ranges: the tagged address
`(fam, a)` is covered by some range of the list. -/
def memUnion (l : List Range) (fam : IpFam) (a : Nat) : Prop :=
  ∃ r ∈ l, r.fam = fam ∧ r.beg ≤ a ∧ a ≤ r.endv

theorem IpFam.key_inj {a b : IpFam} (h : a.key = b.key) : a = b := by
  cases a <;> cases b <;> first | rfl | exact absurd h (by decide)

theorem IpFam.bits_le (f : IpFam) : f.bits ≤ 128 := by
  cases f <;> decide

theorem keyLe_fam_key {a b : Range} (h : keyLe a b) : a.fam.key ≤ b.fam.key := by
  rcases h with h | ⟨h, _⟩ <;> omega

theorem keyLe_beg {a b : Range} (h : keyLe a b) (hf : a.fam = b.fam) :
    a.beg ≤ b.beg := by
  have hk : a.fam.key = b.fam.key := by rw [hf]
  rcases h with h | ⟨_, h2 | ⟨h2, _⟩⟩ <;> omega

theorem keyLe_endv {a b : Range} (h : keyLe a b) (hf : a.fam = b.fam)
    (hb : a.beg = b.beg) : a.endv ≤ b.endv := by
  have hk : a.fam.key = b.fam.key := by rw [hf]
  rcases h with h | ⟨_, h2 | ⟨_, h3⟩⟩ <;> omega

theorem key_lt_of_le_of_ne {a b : Range} (h : a.fam.key ≤ b.fam.key)
    (hne : a.fam ≠ b.fam) : a.fam.key < b.fam.key := by
  rcases Nat.lt_or_ge a.fam.key b.fam.key with h1 | h1
  · exact h1
  · exact absurd (IpFam.key_inj (by omega)) hne

/-- A well-formed next range is absorbed by the saturating test exactly
when it would be by the exact `cur.end + 1` test of the claim. -/
theorem merge_cond_iff {cur r : Range} (hw : r.wf) :
    r.beg ≤ satAdd128 cur.endv 1 ↔ r.beg ≤ cur.endv + 1 := by
  have hb : r.beg ≤ U128MAX := by
    have h1 := hw.1
    have h2 := hw.2
    have h3 : 2 ^ r.fam.bits ≤ 2 ^ 128 :=
      Nat.pow_le_pow_right (by norm_num) (IpFam.bits_le r.fam)
    unfold U128MAX
    omega
  unfold satAdd128
  omega

theorem memUnion_nil (fam : IpFam) (a : Nat) : ¬ memUnion [] fam a := by
  rintro ⟨r, hr, _⟩
  exact absurd hr (List.not_mem_nil r)

theorem memUnion_cons {x : Range} {l : List Range} {fam : IpFam} {a : Nat} :
    memUnion (x :: l) fam a
      ↔ (x.fam = fam ∧ x.beg ≤ a ∧ a ≤ x.endv) ∨ memUnion l fam a := by
  constructor
  · rintro ⟨r, hr, hp⟩
    rcases List.mem_cons.mp hr with rfl | hr'
    · exact Or.inl hp
    · exact Or.inr ⟨r, hr', hp⟩
  · rintro (hp | ⟨r, hr, hp⟩)
    · exact ⟨x, List.mem_cons_self x l, hp⟩
    · exact ⟨r, List.mem_cons_of_mem _ hr, hp⟩

/-- Merging the head with the next range preserves sortedness of the
rest of the list. -/
theorem pairwise_merged {cur r : Range} {rest' : List Range}
    (hp : (cur :: r :: rest').Pairwise keyLe) (hf : cur.fam = r.fam) :
    ((⟨cur.fam, cur.beg, max cur.endv r.endv⟩ : Range) :: rest').Pairwise keyLe := by
  obtain ⟨hp1, hp2⟩ := List.pairwise_cons.mp hp
  obtain ⟨hp21, hp22⟩ := List.pairwise_cons.mp hp2
  refine List.pairwise_cons.mpr ⟨?_, hp22⟩
  intro y hy
  have hcy := hp1 y (List.mem_cons_of_mem _ hy)
  have hry := hp21 y hy
  show keyLe ⟨cur.fam, cur.beg, max cur.endv r.endv⟩ y
  unfold keyLe at hcy ⊢
  dsimp only
  rcases hcy with h | ⟨h1, h2⟩
  · exact Or.inl h
  · refine Or.inr ⟨h1, ?_⟩
    rcases h2 with h2 | ⟨h2, h3⟩
    · exact Or.inl h2
    · refine Or.inr ⟨h2, ?_⟩
      have hfy : cur.fam = y.fam := IpFam.key_inj h1
      have hfr : r.fam = y.fam := by rw [← hf, hfy]
      have hcr := hp1 r (List.mem_cons_self _ _)
      have hbcr : cur.beg ≤ r.beg := keyLe_beg hcr hf
      have hbry : r.beg ≤ y.beg := keyLe_beg hry hfr
      have hre : r.endv ≤ y.endv := keyLe_endv hry hfr (by omega)
      omega

/-- Every range emitted by the sweep sits at or after the current
accumulator in family order, and within the same family starts no
earlier than it. -/
theorem mergeGo_elem : ∀ (rest : List Range) (cur : Range),
    (cur :: rest).Pairwise keyLe →
    ∀ x ∈ mergeGo cur rest,
      cur.fam.key ≤ x.fam.key ∧ (x.fam = cur.fam → cur.beg ≤ x.beg) := by
  intro rest
  induction rest with
  | nil =>
      intro cur _ x hx
      have hx' : x = cur := by simpa [mergeGo] using hx
      subst hx'
      exact ⟨le_refl _, fun _ => le_refl _⟩
  | cons r rest' ih =>
      intro cur hp x hx
      obtain ⟨hp1, hp2⟩ := List.pairwise_cons.mp hp
      have hcr := hp1 r (List.mem_cons_self _ _)
      by_cases hc : cur.fam = r.fam ∧ r.beg ≤ satAdd128 cur.endv 1
      · rw [show mergeGo cur (r :: rest')
            = mergeGo ⟨cur.fam, cur.beg, max cur.endv r.endv⟩ rest' from by
          rw [mergeGo, if_pos hc]] at hx
        exact ih _ (pairwise_merged hp hc.1) x hx
      · rw [show mergeGo cur (r :: rest') = cur :: mergeGo r rest' from by
          rw [mergeGo, if_neg hc]] at hx
        rcases List.mem_cons.mp hx with rfl | hx'
        · exact ⟨le_refl _, fun _ => le_refl _⟩
        · have hE := ih r hp2 x hx'
          constructor
          · exact le_trans (keyLe_fam_key hcr) hE.1
          · intro hfx
            by_cases hfr : x.fam = r.fam
            · have hbx : r.beg ≤ x.beg := hE.2 hfr
              have hcb : cur.beg ≤ r.beg := keyLe_beg hcr (by rw [← hfx, hfr])
              omega
            · exfalso
              have h1 := keyLe_fam_key hcr
              have h2 := hE.1
              have h3 : x.fam.key = cur.fam.key := by rw [hfx]
              exact hfr ((IpFam.key_inj (by omega : x.fam.key = r.fam.key)))

/-- The sweep preserves the union of covered addresses. -/
theorem mergeGo_union : ∀ (rest : List Range) (cur : Range),
    (cur :: rest).Pairwise keyLe → (∀ x ∈ cur :: rest, x.wf) →
    ∀ fam a, memUnion (mergeGo cur rest) fam a ↔ memUnion (cur :: rest) fam a := by
  intro rest
  induction rest with
  | nil => intro cur _ _ fam a; exact Iff.rfl
  | cons r rest' ih =>
      intro cur hp hw fam a
      obtain ⟨hp1, hp2⟩ := List.pairwise_cons.mp hp
      have hcr := hp1 r (List.mem_cons_self _ _)
      have hwc := hw cur (List.mem_cons_self _ _)
      have hwr := hw r (List.mem_cons_of_mem _ (List.mem_cons_self _ _))
      by_cases hc : cur.fam = r.fam ∧ r.beg ≤ satAdd128 cur.endv 1
      · rw [show mergeGo cur (r :: rest')
            = mergeGo ⟨cur.fam, cur.beg, max cur.endv r.endv⟩ rest' from by
          rw [mergeGo, if_pos hc]]
        have hwm : ∀ x ∈ (⟨cur.fam, cur.beg, max cur.endv r.endv⟩ : Range) :: rest',
            x.wf := by
          intro x hx
          rcases List.mem_cons.mp hx with rfl | hx'
          · refine ⟨?_, ?_⟩
            · dsimp only
              have := hwc.1
              omega
            · dsimp only
              have h1 := hwc.2
              have h2 := hwr.2
              rw [← hc.1] at h2
              exact max_lt h1 h2
          · exact hw x (List.mem_cons_of_mem _ (List.mem_cons_of_mem _ hx'))
        rw [ih _ (pairwise_merged hp hc.1) hwm fam a]
        rw [memUnion_cons, memUnion_cons, memUnion_cons]
        have hrb : r.beg ≤ cur.endv + 1 := (merge_cond_iff hwr).mp hc.2
        have hbcr : cur.beg ≤ r.beg := keyLe_beg hcr hc.1
        constructor
        · rintro (⟨hf, hb, he⟩ | hM)
          · dsimp only at hf hb he
            rcases le_or_lt a cur.endv with h | h
            · exact Or.inl ⟨hf, hb, h⟩
            · refine Or.inr (Or.inl ⟨by rw [← hc.1]; exact hf, by omega, by omega⟩)
          · exact Or.inr (Or.inr hM)
        · rintro (⟨hf, hb, he⟩ | ⟨hf, hb, he⟩ | hM)
          · refine Or.inl ⟨hf, hb, ?_⟩
            dsimp only
            omega
          · refine Or.inl ⟨by rw [hc.1]; exact hf, ?_, ?_⟩ <;> dsimp only <;> omega
          · exact Or.inr hM
      · rw [show mergeGo cur (r :: rest') = cur :: mergeGo r rest' from by
          rw [mergeGo, if_neg hc]]
        rw [memUnion_cons,
          ih r hp2 (fun x hx => hw x (List.mem_cons_of_mem _ hx)) fam a,
          memUnion_cons]
        rw [memUnion_cons, memUnion_cons]

/-- The sweep's output is sorted, pairwise separated (same-family
ranges are disjoint with a gap of at least one address between them),
and well-formed. -/
theorem mergeGo_sep : ∀ (rest : List Range) (cur : Range),
    (cur :: rest).Pairwise keyLe → (∀ x ∈ cur :: rest, x.wf) →
    (mergeGo cur rest).Pairwise keyLe ∧
    (mergeGo cur rest).Pairwise (fun a b => a.fam = b.fam → a.endv + 1 < b.beg) ∧
    (∀ x ∈ mergeGo cur rest, x.wf) := by
  intro rest
  induction rest with
  | nil =>
      intro cur _ hw
      refine ⟨List.pairwise_singleton _ _, List.pairwise_singleton _ _, ?_⟩
      intro x hx
      have hx' : x = cur := by simpa [mergeGo] using hx
      rw [hx']
      exact hw cur (List.mem_cons_self _ _)
  | cons r rest' ih =>
      intro cur hp hw
      obtain ⟨hp1, hp2⟩ := List.pairwise_cons.mp hp
      have hcr := hp1 r (List.mem_cons_self _ _)
      have hwc := hw cur (List.mem_cons_self _ _)
      have hwr := hw r (List.mem_cons_of_mem _ (List.mem_cons_self _ _))
      by_cases hc : cur.fam = r.fam ∧ r.beg ≤ satAdd128 cur.endv 1
      · rw [show mergeGo cur (r :: rest')
            = mergeGo ⟨cur.fam, cur.beg, max cur.endv r.endv⟩ rest' from by
          rw [mergeGo, if_pos hc]]
        have hwm : ∀ x ∈ (⟨cur.fam, cur.beg, max cur.endv r.endv⟩ : Range) :: rest',
            x.wf := by
          intro x hx
          rcases List.mem_cons.mp hx with rfl | hx'
          · refine ⟨?_, ?_⟩
            · dsimp only
              have := hwc.1
              omega
            · dsimp only
              have h1 := hwc.2
              have h2 := hwr.2
              rw [← hc.1] at h2
              exact max_lt h1 h2
          · exact hw x (List.mem_cons_of_mem _ (List.mem_cons_of_mem _ hx'))
        exact ih _ (pairwise_merged hp hc.1) hwm
      · rw [show mergeGo cur (r :: rest') = cur :: mergeGo r rest' from by
          rw [mergeGo, if_neg hc]]
        have hw' : ∀ x ∈ r :: rest', x.wf :=
          fun x hx => hw x (List.mem_cons_of_mem _ hx)
        obtain ⟨hs', hsep', hwf'⟩ := ih r hp2 hw'
        have hkey : ∀ x ∈ mergeGo r rest',
            keyLe cur x ∧ (cur.fam = x.fam → cur.endv + 1 < x.beg) := by
          intro x hx
          have hE := mergeGo_elem rest' r hp2 x hx
          by_cases hf : cur.fam = r.fam
          · have hgap : cur.endv + 1 < r.beg := by
              have h1 := (not_and.mp hc) hf
              have h2 := (merge_cond_iff hwr).not.mp h1
              omega
            constructor
            · by_cases hfx : x.fam = r.fam
              · have hbx : r.beg ≤ x.beg := hE.2 hfx
                have hbc : cur.beg ≤ cur.endv := hwc.1
                refine Or.inr ⟨by rw [hf, ← hfx], Or.inl (by omega)⟩
              · have h1 : r.fam.key < x.fam.key :=
                  key_lt_of_le_of_ne hE.1 (fun h => hfx h.symm)
                refine Or.inl ?_
                rw [hf]
                exact h1
            · intro hfx
              by_cases hfxr : x.fam = r.fam
              · have hbx : r.beg ≤ x.beg := hE.2 hfxr
                omega
              · exfalso
                have h1 : r.fam.key < x.fam.key :=
                  key_lt_of_le_of_ne hE.1 (fun h => hfxr h.symm)
                have h2 : cur.fam.key = x.fam.key := by rw [hfx]
                have h3 : cur.fam.key = r.fam.key := by rw [hf]
                omega
          · have h1 : cur.fam.key < r.fam.key :=
              key_lt_of_le_of_ne (keyLe_fam_key hcr) hf
            have h2 : cur.fam.key < x.fam.key := by
              have := hE.1
              omega
            refine ⟨Or.inl h2, fun hfx => ?_⟩
            exfalso
            have h3 : cur.fam.key = x.fam.key := by rw [hfx]
            omega
        refine ⟨List.pairwise_cons.mpr ⟨fun x hx => (hkey x hx).1, hs'⟩,
          List.pairwise_cons.mpr ⟨fun x hx hf => (hkey x hx).2 hf, hsep'⟩,
          ?_⟩
        intro x hx
        rcases List.mem_cons.mp hx with rfl | hx'
        · exact hwc
        · exact hwf' x hx'

/-- In a sorted list, the head is key-minimal among the covered
addresses: anything covered lies in a strictly later family or at or
after the head's begin. -/
theorem memUnion_head_min {h : Range} {t : List Range} {fam : IpFam} {a : Nat}
    (hs : (h :: t).Pairwise keyLe) (hm : memUnion (h :: t) fam a) :
    h.fam.key < fam.key ∨ (h.fam = fam ∧ h.beg ≤ a) := by
  obtain ⟨hs1, _⟩ := List.pairwise_cons.mp hs
  obtain ⟨r, hr, hfam, hba, hae⟩ := hm
  rcases List.mem_cons.mp hr with rfl | hr'
  · exact Or.inr ⟨hfam, hba⟩
  · have hk := keyLe_fam_key (hs1 r hr')
    have hrk : r.fam.key = fam.key := by rw [hfam]
    rcases Nat.lt_or_ge h.fam.key fam.key with hlt | hge
    · exact Or.inl hlt
    · have hke : h.fam.key = fam.key := by omega
      have hfe : h.fam = fam := IpFam.key_inj hke
      have hfr : h.fam = r.fam := by rw [hfe, hfam]
      have := keyLe_beg (hs1 r hr') hfr
      exact Or.inr ⟨hfe, by omega⟩

/-- Sorted, pairwise separated, well-formed lists of ranges are
determined by the address set they cover. -/
theorem separated_sorted_unique :
    ∀ (l1 l2 : List Range),
    l1.Pairwise keyLe →
    l1.Pairwise (fun a b => a.fam = b.fam → a.endv + 1 < b.beg) →
    (∀ r ∈ l1, r.wf) →
    l2.Pairwise keyLe →
    l2.Pairwise (fun a b => a.fam = b.fam → a.endv + 1 < b.beg) →
    (∀ r ∈ l2, r.wf) →
    (∀ fam a, memUnion l1 fam a ↔ memUnion l2 fam a) →
    l1 = l2 := by
  intro l1
  induction l1 with
  | nil =>
      intro l2 _ _ _ _ _ hw2 hU
      cases l2 with
      | nil => rfl
      | cons h2 t2 =>
          exfalso
          have hm : memUnion (h2 :: t2) h2.fam h2.beg :=
            ⟨h2, List.mem_cons_self _ _, rfl, le_refl _,
              (hw2 h2 (List.mem_cons_self _ _)).1⟩
          exact memUnion_nil h2.fam h2.beg ((hU h2.fam h2.beg).mpr hm)
  | cons h1 t1 ih =>
      intro l2 hs1 hsep1 hw1 hs2 hsep2 hw2 hU
      cases l2 with
      | nil =>
          exfalso
          have hm : memUnion (h1 :: t1) h1.fam h1.beg :=
            ⟨h1, List.mem_cons_self _ _, rfl, le_refl _,
              (hw1 h1 (List.mem_cons_self _ _)).1⟩
          exact memUnion_nil h1.fam h1.beg ((hU h1.fam h1.beg).mp hm)
      | cons h2 t2 =>
          have hwh1 := hw1 h1 (List.mem_cons_self _ _)
          have hwh2 := hw2 h2 (List.mem_cons_self _ _)
          have hm1 : memUnion (h1 :: t1) h1.fam h1.beg :=
            ⟨h1, List.mem_cons_self _ _, rfl, le_refl _, hwh1.1⟩
          have hm2 : memUnion (h2 :: t2) h2.fam h2.beg :=
            ⟨h2, List.mem_cons_self _ _, rfl, le_refl _, hwh2.1⟩
          have hmin12 := memUnion_head_min hs2 ((hU h1.fam h1.beg).mp hm1)
          have hmin21 := memUnion_head_min hs1 ((hU h2.fam h2.beg).mpr hm2)
          have hfameq : h1.fam = h2.fam := by
            rcases hmin12 with h | ⟨hf, _⟩
            · rcases hmin21 with h' | ⟨hf', _⟩
              · exfalso; omega
              · exact hf'
            · exact hf.symm
          have hbegeq : h1.beg = h2.beg := by
            have hk : h1.fam.key = h2.fam.key := by rw [hfameq]
            rcases hmin12 with h | ⟨_, hb⟩
            · omega
            · rcases hmin21 with h' | ⟨_, hb'⟩
              · omega
              · omega
          obtain ⟨hsep11, hsep1t⟩ := List.pairwise_cons.mp hsep1
          obtain ⟨hsep21, hsep2t⟩ := List.pairwise_cons.mp hsep2
          have hendle : ∀ {x y : Range} {tx ty : List Range},
              (x :: tx).Pairwise keyLe →
              (∀ u ∈ x :: tx, u.wf) →
              (∀ u ∈ tx, x.fam = u.fam → x.endv + 1 < u.beg) →
              x.fam = y.fam → x.beg = y.beg →
              (∀ fam a, memUnion (x :: tx) fam a ↔ memUnion (y :: ty) fam a) →
              x.endv < y.endv → False := by
            intro x y tx ty hsx hwx hsepx hfxy hbxy hUxy hlt
            have hwx1 := hwx x (List.mem_cons_self _ _)
            have hxb : x.beg ≤ x.endv := hwx1.1
            have hcov : memUnion (y :: ty) x.fam (x.endv + 1) :=
              ⟨y, List.mem_cons_self _ _, hfxy.symm, by omega, by omega⟩
            have hbk := (hUxy x.fam (x.endv + 1)).mpr hcov
            obtain ⟨r, hr, hfam, hba, hae⟩ := hbk
            rcases List.mem_cons.mp hr with rfl | hr'
            · omega
            · have := hsepx r hr' hfam.symm
              omega
          have hendeq : h1.endv = h2.endv := by
            rcases Nat.lt_trichotomy h1.endv h2.endv with h | h | h
            · exact absurd h (fun hlt => hendle hs1 hw1 hsep11 hfameq hbegeq hU hlt)
            · exact h
            · exfalso
              refine hendle hs2 hw2 hsep21 hfameq.symm hbegeq.symm
                (fun fam a => (hU fam a).symm) h
          have hh : h1 = h2 := by
            cases h1
            cases h2
            simp_all
          subst hh
          have htU : ∀ fam a, memUnion t1 fam a ↔ memUnion t2 fam a := by
            intro fam a
            constructor
            · intro hm
              obtain ⟨r, hr, hfam, hba, hae⟩ := hm
              have hU2 := (hU fam a).mp ⟨r, List.mem_cons_of_mem _ hr, hfam, hba, hae⟩
              rw [memUnion_cons] at hU2
              rcases hU2 with ⟨hf2, hb2, he2⟩ | hm2
              · exfalso
                have := hsep11 r hr (by rw [hf2, ← hfam])
                omega
              · exact hm2
            · intro hm
              obtain ⟨r, hr, hfam, hba, hae⟩ := hm
              have hU1 := (hU fam a).mpr ⟨r, List.mem_cons_of_mem _ hr, hfam, hba, hae⟩
              rw [memUnion_cons] at hU1
              rcases hU1 with ⟨hf2, hb2, he2⟩ | hm2
              · exfalso
                have := hsep21 r hr (by rw [hf2, ← hfam])
                omega
              · exact hm2
          have hteq := ih t2 (List.Pairwise.of_cons hs1) hsep1t
            (fun r hr => hw1 r (List.mem_cons_of_mem _ hr))
            (List.Pairwise.of_cons hs2) hsep2t
            (fun r hr => hw2 r (List.mem_cons_of_mem _ hr)) htU
          rw [hteq]

/-- C4: the exact merge sweep over (family, beg, end)-sorted,
well-formed ranges.  (i) A next range is absorbed into the current
accumulator iff it has the same family and `next.beg ≤ current.end + 1`
(the source's saturating test agrees with this on well-formed input),
extending the end to the max of the two.  (ii) The output covers
exactly the union of the inputs, (iii) is pairwise disjoint and
non-adjacent within each family, and (iv) is the unique such sorted
list: any sorted, pairwise disjoint and non-adjacent, well-formed list
with the same address union is equal to it (hence it is the unique
minimal representation). -/
theorem C4_merge_ranges_exact (l : List Range)
    (hs : l.Pairwise keyLe) (hw : ∀ r ∈ l, r.wf) :
    (∀ (cur r : Range) (rest : List Range), r.wf →
      mergeGo cur (r :: rest)
        = if cur.fam = r.fam ∧ r.beg ≤ cur.endv + 1
          then mergeGo ⟨cur.fam, cur.beg, max cur.endv r.endv⟩ rest
          else cur :: mergeGo r rest) ∧
    (∀ fam a, memUnion (merge_ranges l) fam a ↔ memUnion l fam a) ∧
    (merge_ranges l).Pairwise (fun a b => a.fam = b.fam → a.endv + 1 < b.beg) ∧
    (∀ l2 : List Range, l2.Pairwise keyLe →
      l2.Pairwise (fun a b => a.fam = b.fam → a.endv + 1 < b.beg) →
      (∀ r ∈ l2, r.wf) →
      (∀ fam a, memUnion l2 fam a ↔ memUnion l fam a) →
      l2 = merge_ranges l) := by
  refine ⟨?_, ?_, ?_, ?_⟩
  · intro cur r rest hwr
    rw [show mergeGo cur (r :: rest)
        = if cur.fam = r.fam ∧ r.beg ≤ satAdd128 cur.endv 1
          then mergeGo ⟨cur.fam, cur.beg, max cur.endv r.endv⟩ rest
          else cur :: mergeGo r rest from by rw [mergeGo]]
    exact if_congr (and_congr_right fun _ => merge_cond_iff hwr) rfl rfl
  · cases l with
    | nil => intro fam a; exact Iff.rfl
    | cons h t => exact mergeGo_union t h hs hw
  · cases l with
    | nil => exact List.Pairwise.nil
    | cons h t => exact (mergeGo_sep t h hs hw).2.1
  · intro l2 h2s h2sep h2w hU2
    cases l with
    | nil =>
        exact separated_sorted_unique l2 [] h2s h2sep h2w
          List.Pairwise.nil List.Pairwise.nil
          (fun r hr => absurd hr (List.not_mem_nil r)) hU2
    | cons h t =>
        have hms := mergeGo_sep t h hs hw
        have hmu := mergeGo_union t h hs hw
        exact separated_sorted_unique l2 (mergeGo h t) h2s h2sep h2w
          hms.1 hms.2.1 hms.2.2
          (fun fam a => (hU2 fam a).trans ((hmu fam a).symm))

/-- C4 (witness): the merge theorem applied to the concrete sorted
overlapping pair `[0,5], [3,10]` of family V4. -/
theorem C4_witness :
    (∀ (cur r : Range) (rest : List Range), r.wf →
      mergeGo cur (r :: rest)
        = if cur.fam = r.fam ∧ r.beg ≤ cur.endv + 1
          then mergeGo ⟨cur.fam, cur.beg, max cur.endv r.endv⟩ rest
          else cur :: mergeGo r rest) ∧
    (∀ fam a,
      memUnion (merge_ranges [⟨IpFam.V4, 0, 5⟩, ⟨IpFam.V4, 3, 10⟩]) fam a
        ↔ memUnion [⟨IpFam.V4, 0, 5⟩, ⟨IpFam.V4, 3, 10⟩] fam a) ∧
    (merge_ranges [⟨IpFam.V4, 0, 5⟩, ⟨IpFam.V4, 3, 10⟩]).Pairwise
      (fun a b => a.fam = b.fam → a.endv + 1 < b.beg) ∧
    (∀ l2 : List Range, l2.Pairwise keyLe →
      l2.Pairwise (fun a b => a.fam = b.fam → a.endv + 1 < b.beg) →
      (∀ r ∈ l2, r.wf) →
      (∀ fam a, memUnion l2 fam a
        ↔ memUnion [⟨IpFam.V4, 0, 5⟩, ⟨IpFam.V4, 3, 10⟩] fam a) →
      l2 = merge_ranges [⟨IpFam.V4, 0, 5⟩, ⟨IpFam.V4, 3, 10⟩]) :=
  C4_merge_ranges_exact [⟨IpFam.V4, 0, 5⟩, ⟨IpFam.V4, 3, 10⟩]
    (by decide) (by decide)

/- ------------------------------------------------------------------ -/
/- Iterators (structs.rs).                                             -/
/- ------------------------------------------------------------------ -/

/-- State of `CidrIterator` (structs.rs): family, current position and
inclusive end, all on the 128-bit working integer. -/
structure CidrIterator where
  fam : IpFam
  current : Nat
  endv : Nat
deriving DecidableEq, Repr

/-- `CidrIterator::new`: initialises from `cidr_to_range`. -/
def CidrIterator.new (c : Cidr) : CidrIterator :=
  let range := cidr_to_range c
  ⟨range.fam, range.beg, range.endv⟩

/-- One call of `CidrIterator::next`: yields the current address and
advances with `saturating_add(1)`; `none` once `current > end`. -/
def CidrIterator.next (it : CidrIterator) : Option (IpAddr × CidrIterator) :=
  if it.current > it.endv then none
  else some (int_to_ip it.fam it.current,
    ⟨it.fam, satAdd128 it.current 1, it.endv⟩)

/-- First `n` outputs of a `CidrIterator` (shorter if the iterator
halts earlier). -/
def cidrIterTake : Nat → CidrIterator → List IpAddr
  | 0, _ => []
  | n + 1, it =>
      match it.next with
      | none => []
      | some (ip, it') => ip :: cidrIterTake n it'

/-- Family-width saturating increment used by `IpRangeIterator::next`
(`u32::saturating_add(1)` resp. `u128::saturating_add(1)` after the
octet conversion round trip). -/
def ipSucc (a : IpAddr) : IpAddr :=
  match a with
  | .v4 v => .v4 (min (v + 1) (2 ^ 32 - 1))
  | .v6 v => .v6 (min (v + 1) U128MAX)

/-- State of `IpRangeIterator`: current, inclusive end and done flag. -/
structure IpRangeIterator where
  current : IpAddr
  endp : IpAddr
  done : Bool
deriving DecidableEq, Repr

/-- One call of `IpRangeIterator::next`: done-flagged halt after the
inclusive end has been yielded. -/
def IpRangeIterator.next (it : IpRangeIterator) : Option (IpAddr × IpRangeIterator) :=
  if it.done then none
  else if it.current = it.endp then
    some (it.current, ⟨it.current, it.endp, true⟩)
  else
    some (it.current, ⟨ipSucc it.current, it.endp, false⟩)

/-- C5 (code bug): the `CidrIterator` of the v6 host block at the
all-ones address never halts: `next` yields `ffff:…:ffff` and the
saturating advance leaves the state unchanged, so after the inclusive
end has been yielded the iterator yields it again, forever — for every
`n` the first `n` outputs are `n` copies of the same address, never the
claimed halt. -/
theorem C5_cidr_iterator_diverges :
    ∀ n : Nat,
      cidrIterTake n (CidrIterator.new ⟨IpAddr.v6 U128MAX, 128⟩)
        = List.replicate n (IpAddr.v6 U128MAX) := by
  have hnew : CidrIterator.new ⟨IpAddr.v6 U128MAX, 128⟩
      = ⟨IpFam.V6, U128MAX, U128MAX⟩ := by decide
  have hstep : CidrIterator.next ⟨IpFam.V6, U128MAX, U128MAX⟩
      = some (IpAddr.v6 U128MAX, ⟨IpFam.V6, U128MAX, U128MAX⟩) := by decide
  have hloop : ∀ n : Nat,
      cidrIterTake n ⟨IpFam.V6, U128MAX, U128MAX⟩
        = List.replicate n (IpAddr.v6 U128MAX) := by
    intro n
    induction n with
    | zero => rfl
    | succ m ihm =>
        rw [show cidrIterTake (m + 1) ⟨IpFam.V6, U128MAX, U128MAX⟩
            = match CidrIterator.next ⟨IpFam.V6, U128MAX, U128MAX⟩ with
              | none => []
              | some (ip, it') => ip :: cidrIterTake m it' from rfl, hstep]
        show IpAddr.v6 U128MAX :: cidrIterTake m ⟨IpFam.V6, U128MAX, U128MAX⟩ = _
        rw [ihm]
        rfl
  intro n
  rw [hnew]
  exact hloop n

/- ------------------------------------------------------------------ -/
/- IpRange construction and the range-collapsing entry points.        -/
/- ------------------------------------------------------------------ -/

/-- The `AddressError` taxonomy (mod.rs).  The `source` payloads of the
three parse-error variants (underlying `AddrParseError` /
`ParseIntError` values) are dropped: the repository never inspects
them. -/
inductive AddressError where
  | Invalid (s : String)
  | InvalidRangeFmt (s : String)
  | InvalidRangeBegIp (beg : String)
  | InvalidRangeEndIp (endp : String)
  | InvalidRangeEndVal (val : String)
  | InvalidV4Octet (v : Nat)
  | InvalidV6Hextet (v : Nat)
  | RangeTooLarge (n : Nat)
  | RangeOrder (beg endp : IpAddr)
  | Mismatch (a b : IpAddr)
deriving DecidableEq, Repr

/-- The standard-library order on `IpAddr`: every V4 address sorts
before every V6 address; within a family the big-endian octets compare
lexicographically, i.e. numerically. -/
def ipLt (a b : IpAddr) : Prop :=
  a.fam.key < b.fam.key ∨ (a.fam.key = b.fam.key ∧ a.val < b.val)

instance : ∀ a b : IpAddr, Decidable (ipLt a b) := fun a b => by
  unfold ipLt
  infer_instance

/-- Inclusive range of typed addresses (`IpRange` in structs.rs); the
source's `end` field is called `endp` here. -/
structure IpRange where
  beg : IpAddr
  endp : IpAddr
deriving DecidableEq, Repr

/-- `IpRange::new`: rejects mixed families (note the source's pattern
puts the V4 value first in the `Mismatch` payload for both argument
orders) and then rejects `beg > end`; otherwise returns the unchanged
pair. -/
def IpRange.new (beg endp : IpAddr) : Except AddressError IpRange :=
  match beg, endp with
  | .v4 a, .v6 b => .error (.Mismatch (.v4 a) (.v6 b))
  | .v6 b, .v4 a => .error (.Mismatch (.v4 a) (.v6 b))
  | _, _ =>
      if ipLt endp beg then .error (.RangeOrder beg endp)
      else .ok ⟨beg, endp⟩

/-- `iprange_to_range` (collapsing.rs): converts a typed pair into a
working `Range`, swapping a reversed pair, and failing on mixed
families (reachable because the struct fields are public). -/
def iprange_to_range (r : IpRange) : Except AddressError Range :=
  match r.beg, r.endp with
  | .v4 a, .v4 b =>
      if a ≤ b then .ok ⟨.V4, a, b⟩ else .ok ⟨.V4, b, a⟩
  | .v6 a, .v6 b =>
      if a ≤ b then .ok ⟨.V6, a, b⟩ else .ok ⟨.V6, b, a⟩
  | beg, endp => .error (.Mismatch beg endp)

/-- Insertion of a range into a list sorted by `cmp_key`; models the
source's stable `sort_by` (two ranges with equal keys are equal, so
stability is immaterial). -/
def insertSorted (r : Range) : List Range → List Range
  | [] => [r]
  | x :: xs => if keyLe x r then x :: insertSorted r xs else r :: x :: xs

/-- Sort by `cmp_key` (the `ranges.sort_by(...)` step). -/
def sortRanges : List Range → List Range
  | [] => []
  | x :: xs => insertSorted x (sortRanges xs)

/-- `collapse_ranges` (collapsing.rs): normalize, sort, merge,
decompose.  The inner `Option` marks whether every decomposition
terminates (`none` = the source loop diverges, see C2). -/
def collapse_ranges (input : List IpRange) :
    Except AddressError (Option (List Cidr)) := do
  let ranges ← input.mapM iprange_to_range
  let merged := merge_ranges (sortRanges ranges)
  return (merged.mapM range_to_cidrs).map List.flatten

/-- `collapse_ranges_tuples`: convenience overload building `IpRange`
values through the checked constructor first. -/
def collapse_ranges_tuples (input : List (IpAddr × IpAddr)) :
    Except AddressError (Option (List Cidr)) := do
  let v ← input.mapM (fun p => IpRange.new p.1 p.2)
  collapse_ranges v

/-- C8: `IpRange::new` fails with a family-mismatch error on mixed
families, fails with `RangeOrder` on a reversed same-family pair, and
otherwise returns the unchanged pair; consequently
`collapse_ranges_tuples` on the reversed pair `(10.0.0.5, 10.0.0.1)`
fails with `RangeOrder` instead of silently reordering. -/
theorem C8_iprange_new (beg endp : IpAddr) :
    (beg.fam ≠ endp.fam →
      ∃ a b, IpRange.new beg endp = .error (.Mismatch a b)) ∧
    (beg.fam = endp.fam → endp.val < beg.val →
      IpRange.new beg endp = .error (.RangeOrder beg endp)) ∧
    (beg.fam = endp.fam → beg.val ≤ endp.val →
      IpRange.new beg endp = .ok ⟨beg, endp⟩) ∧
    collapse_ranges_tuples [(IpAddr.v4 167772165, IpAddr.v4 167772161)]
      = .error (.RangeOrder (IpAddr.v4 167772165) (IpAddr.v4 167772161)) := by
  refine ⟨?_, ?_, ?_, by rfl⟩
  · intro hne
    cases beg with
    | v4 a =>
        cases endp with
        | v4 b => exact absurd rfl hne
        | v6 b => exact ⟨.v4 a, .v6 b, rfl⟩
    | v6 a =>
        cases endp with
        | v4 b => exact ⟨.v4 b, .v6 a, rfl⟩
        | v6 b => exact absurd rfl hne
  · intro hfe hlt
    cases beg with
    | v4 a =>
        cases endp with
        | v4 b =>
            have hl : ipLt (IpAddr.v4 b) (IpAddr.v4 a) := Or.inr ⟨rfl, hlt⟩
            rw [show IpRange.new (IpAddr.v4 a) (IpAddr.v4 b)
                = if ipLt (IpAddr.v4 b) (IpAddr.v4 a)
                  then .error (.RangeOrder (IpAddr.v4 a) (IpAddr.v4 b))
                  else .ok ⟨IpAddr.v4 a, IpAddr.v4 b⟩ from rfl, if_pos hl]
        | v6 b => exact absurd hfe (by simp [IpAddr.fam])
    | v6 a =>
        cases endp with
        | v4 b => exact absurd hfe (by simp [IpAddr.fam])
        | v6 b =>
            have hl : ipLt (IpAddr.v6 b) (IpAddr.v6 a) := Or.inr ⟨rfl, hlt⟩
            rw [show IpRange.new (IpAddr.v6 a) (IpAddr.v6 b)
                = if ipLt (IpAddr.v6 b) (IpAddr.v6 a)
                  then .error (.RangeOrder (IpAddr.v6 a) (IpAddr.v6 b))
                  else .ok ⟨IpAddr.v6 a, IpAddr.v6 b⟩ from rfl, if_pos hl]
  · intro hfe hle
    cases beg with
    | v4 a =>
        cases endp with
        | v4 b =>
            have hl : ¬ ipLt (IpAddr.v4 b) (IpAddr.v4 a) := by
              rintro (h | ⟨_, h⟩)
              · exact absurd h (by simp [IpAddr.fam, IpFam.key])
              · have hb : IpAddr.val (IpAddr.v4 b) = b := rfl
                have ha : IpAddr.val (IpAddr.v4 a) = a := rfl
                have hle' : a ≤ b := hle
                omega
            rw [show IpRange.new (IpAddr.v4 a) (IpAddr.v4 b)
                = if ipLt (IpAddr.v4 b) (IpAddr.v4 a)
                  then .error (.RangeOrder (IpAddr.v4 a) (IpAddr.v4 b))
                  else .ok ⟨IpAddr.v4 a, IpAddr.v4 b⟩ from rfl, if_neg hl]
        | v6 b => exact absurd hfe (by simp [IpAddr.fam])
    | v6 a =>
        cases endp with
        | v4 b => exact absurd hfe (by simp [IpAddr.fam])
        | v6 b =>
            have hl : ¬ ipLt (IpAddr.v6 b) (IpAddr.v6 a) := by
              rintro (h | ⟨_, h⟩)
              · exact absurd h (by simp [IpAddr.fam, IpFam.key])
              · have hle' : a ≤ b := hle
                omega
            rw [show IpRange.new (IpAddr.v6 a) (IpAddr.v6 b)
                = if ipLt (IpAddr.v6 b) (IpAddr.v6 a)
                  then .error (.RangeOrder (IpAddr.v6 a) (IpAddr.v6 b))
                  else .ok ⟨IpAddr.v6 a, IpAddr.v6 b⟩ from rfl, if_neg hl]

/-- C8 (witness): the theorem applied to the concrete reversed pair. -/
theorem C8_witness :
    IpRange.new (IpAddr.v4 167772165) (IpAddr.v4 167772161)
      = .error (.RangeOrder (IpAddr.v4 167772165) (IpAddr.v4 167772161)) :=
  (C8_iprange_new (IpAddr.v4 167772165) (IpAddr.v4 167772161)).2.1
    rfl (by decide)

/- ------------------------------------------------------------------ -/
/- Textual layer: digits, splitting, address literals.                 -/
/-                                                                     -/
/- The address-literal codec (`std::net` parsing and display) and the  -/
/- `ipnet` network parser live outside this repository; they are       -/
/- modelled from the spec below (each such definition says so).        -/
/- ------------------------------------------------------------------ -/

/-- Decimal digit value of a character, `none` otherwise. -/
def charToDec? (c : Char) : Option Nat :=
  if 48 ≤ c.toNat ∧ c.toNat ≤ 57 then some (c.toNat - 48) else none

/-- Hexadecimal digit value of a character (both cases), `none`
otherwise. -/
def charToHex? (c : Char) : Option Nat :=
  if 48 ≤ c.toNat ∧ c.toNat ≤ 57 then some (c.toNat - 48)
  else if 97 ≤ c.toNat ∧ c.toNat ≤ 102 then some (c.toNat - 87)
  else if 65 ≤ c.toNat ∧ c.toNat ≤ 70 then some (c.toNat - 55)
  else none

/-- Character of a digit value below 16 (lowercase for 10–15). -/
def digitChar (d : Nat) : Char :=
  Char.ofNat (if d < 10 then 48 + d else 87 + d)

/-- Little-endian digits of `n` in base `b2 + 2`, with structural fuel
(`fuel ≥ n` always suffices: the argument at least halves each step).
The `+ 2` keeps the base at least 2 for every parameter. -/
def digitsLEAux (b2 : Nat) : Nat → Nat → List Nat
  | 0, n => [n]
  | fuel + 1, n =>
      if n < b2 + 2 then [n]
      else n % (b2 + 2) :: digitsLEAux b2 fuel (n / (b2 + 2))

/-- Little-endian digits of `n` in base `b2 + 2`. -/
def digitsLE (b2 : Nat) (n : Nat) : List Nat := digitsLEAux b2 n n

theorem digitsLEAux_fuel : ∀ (b2 f1 f2 n : Nat), n ≤ f1 → n ≤ f2 →
    digitsLEAux b2 f1 n = digitsLEAux b2 f2 n := by
  intro b2 f1
  induction f1 with
  | zero =>
      intro f2 n h1 _
      have hn : n = 0 := by omega
      subst hn
      cases f2 with
      | zero => rfl
      | succ b =>
          show [0] = if 0 < b2 + 2 then [0]
            else 0 % (b2 + 2) :: digitsLEAux b2 b (0 / (b2 + 2))
          rw [if_pos (by omega)]
  | succ a ih =>
      intro f2 n h1 h2
      cases f2 with
      | zero =>
          have hn : n = 0 := by omega
          subst hn
          show (if 0 < b2 + 2 then [0]
            else 0 % (b2 + 2) :: digitsLEAux b2 a (0 / (b2 + 2))) = [0]
          rw [if_pos (by omega)]
      | succ b =>
          show (if n < b2 + 2 then [n]
              else n % (b2 + 2) :: digitsLEAux b2 a (n / (b2 + 2)))
            = if n < b2 + 2 then [n]
              else n % (b2 + 2) :: digitsLEAux b2 b (n / (b2 + 2))
          by_cases h : n < b2 + 2
          · rw [if_pos h, if_pos h]
          · rw [if_neg h, if_neg h,
              ih b (n / (b2 + 2))
                (by have := Nat.div_lt_self (show 0 < n by omega) (show 1 < b2 + 2 by omega); omega)
                (by have := Nat.div_lt_self (show 0 < n by omega) (show 1 < b2 + 2 by omega); omega)]

/-- The defining recurrence of `digitsLE`. -/
theorem digitsLE_eq (b2 n : Nat) :
    digitsLE b2 n
      = if n < b2 + 2 then [n]
        else n % (b2 + 2) :: digitsLE b2 (n / (b2 + 2)) := by
  cases n with
  | zero =>
      show [0] = if 0 < b2 + 2 then [0] else _
      rw [if_pos (by omega)]
  | succ m =>
      show (if m + 1 < b2 + 2 then [m + 1]
          else (m + 1) % (b2 + 2) :: digitsLEAux b2 m ((m + 1) / (b2 + 2))) = _
      by_cases h : m + 1 < b2 + 2
      · rw [if_pos h, if_pos h]
      · rw [if_neg h, if_neg h]
        unfold digitsLE
        rw [digitsLEAux_fuel b2 m ((m + 1) / (b2 + 2)) ((m + 1) / (b2 + 2))
          (by have := Nat.div_lt_self (show 0 < m + 1 by omega) (show 1 < b2 + 2 by omega); omega)
          (le_refl _)]

/-- Most-significant-first textual numeral of `n` in base `b2 + 2`. -/
def natRepr (b2 : Nat) (n : Nat) : List Char :=
  ((digitsLE b2 n).reverse).map digitChar

/-- Decimal numeral (the form `Display` emits for integers). -/
def decRepr (n : Nat) : List Char := natRepr 8 n

/-- Minimal lowercase hexadecimal numeral. -/
def hexRepr (n : Nat) : List Char := natRepr 14 n

/-- Fold a digit string most-significant-first. -/
def parseDigitsAux (b : Nat) (f : Char → Option Nat) :
    Nat → List Char → Option Nat
  | acc, [] => some acc
  | acc, c :: cs =>
      match f c with
      | none => none
      | some d => parseDigitsAux b f (acc * b + d) cs

/-- Parse a non-empty all-digit string in base `b`. -/
def parseDigits (b : Nat) (f : Char → Option Nat) (cs : List Char) : Option Nat :=
  if cs = [] then none else parseDigitsAux b f 0 cs

theorem natRepr_ne_nil (b2 n : Nat) : natRepr b2 n ≠ [] := by
  unfold natRepr
  rw [show digitsLE b2 n
      = if n < b2 + 2 then [n] else n % (b2 + 2) :: digitsLE b2 (n / (b2 + 2))
      from digitsLE_eq b2 n]
  by_cases h : n < b2 + 2
  · simp [h]
  · simp [h]

/-- The structural recursion of `natRepr`: peeling the least
significant digit appends it. -/
theorem natRepr_step {b2 n : Nat} (h : ¬ n < b2 + 2) :
    natRepr b2 n = natRepr b2 (n / (b2 + 2)) ++ [digitChar (n % (b2 + 2))] := by
  unfold natRepr
  rw [show digitsLE b2 n = n % (b2 + 2) :: digitsLE b2 (n / (b2 + 2)) from by
    rw [digitsLE_eq, if_neg h]]
  rw [List.reverse_cons, List.map_append]
  rfl

theorem natRepr_base {b2 n : Nat} (h : n < b2 + 2) :
    natRepr b2 n = [digitChar n] := by
  unfold natRepr
  rw [show digitsLE b2 n = [n] from by rw [digitsLE_eq, if_pos h]]
  rfl

theorem parseDigitsAux_append (b : Nat) (f : Char → Option Nat) :
    ∀ (l1 l2 : List Char) (acc : Nat),
      parseDigitsAux b f acc (l1 ++ l2)
        = match parseDigitsAux b f acc l1 with
          | none => none
          | some a => parseDigitsAux b f a l2 := by
  intro l1
  induction l1 with
  | nil => intro l2 acc; rfl
  | cons c cs ih =>
      intro l2 acc
      rw [show parseDigitsAux b f acc ((c :: cs) ++ l2)
          = match f c with
            | none => none
            | some d => parseDigitsAux b f (acc * b + d) (cs ++ l2) from rfl]
      rw [show parseDigitsAux b f acc (c :: cs)
          = match f c with
            | none => none
            | some d => parseDigitsAux b f (acc * b + d) cs from rfl]
      cases hfc : f c with
      | none => rfl
      | some d =>
          show parseDigitsAux b f (acc * b + d) (cs ++ l2)
            = match parseDigitsAux b f (acc * b + d) cs with
              | none => none
              | some a => parseDigitsAux b f a l2
          exact ih l2 (acc * b + d)

/-- Parsing inverts printing, digit by digit, for any digit reader that
agrees with `digitChar` below the base. -/
theorem parseDigitsAux_repr (b2 : Nat) (f : Char → Option Nat)
    (hf : ∀ d, d < b2 + 2 → f (digitChar d) = some d) :
    ∀ n acc, parseDigitsAux (b2 + 2) f acc (natRepr b2 n)
      = some (acc * (b2 + 2) ^ (natRepr b2 n).length + n) := by
  intro n
  induction n using Nat.strong_induction_on with
  | _ n ih =>
    intro acc
    by_cases h : n < b2 + 2
    · rw [natRepr_base h]
      show (match f (digitChar n) with
            | none => none
            | some d => parseDigitsAux (b2 + 2) f (acc * (b2 + 2) + d) []) = _
      rw [hf n h]
      show some (acc * (b2 + 2) + n) = _
      norm_num
    · rw [natRepr_step h, parseDigitsAux_append]
      have hlt : n / (b2 + 2) < n :=
        Nat.div_lt_self (by omega) (by omega)
      rw [ih (n / (b2 + 2)) hlt acc]
      show (match f (digitChar (n % (b2 + 2))) with
            | none => none
            | some d => parseDigitsAux (b2 + 2) f
                ((acc * (b2 + 2) ^ (natRepr b2 (n / (b2 + 2))).length + n / (b2 + 2))
                  * (b2 + 2) + d) []) = _
      rw [hf _ (Nat.mod_lt n (by omega))]
      show some ((acc * (b2 + 2) ^ (natRepr b2 (n / (b2 + 2))).length + n / (b2 + 2))
          * (b2 + 2) + n % (b2 + 2)) = _
      congr 1
      have hlen : (natRepr b2 (n / (b2 + 2)) ++ [digitChar (n % (b2 + 2))]).length
          = (natRepr b2 (n / (b2 + 2))).length + 1 := by
        rw [List.length_append]
        rfl
      rw [hlen, pow_succ]
      have hmd : n / (b2 + 2) * (b2 + 2) + n % (b2 + 2) = n := by
        rw [Nat.mul_comm]
        exact Nat.div_add_mod n (b2 + 2)
      calc (acc * (b2 + 2) ^ (natRepr b2 (n / (b2 + 2))).length + n / (b2 + 2))
            * (b2 + 2) + n % (b2 + 2)
          = acc * ((b2 + 2) ^ (natRepr b2 (n / (b2 + 2))).length * (b2 + 2))
            + (n / (b2 + 2) * (b2 + 2) + n % (b2 + 2)) := by ring
        _ = acc * ((b2 + 2) ^ (natRepr b2 (n / (b2 + 2))).length * (b2 + 2)) + n := by
            rw [hmd]

theorem parseDigits_repr (b2 : Nat) (f : Char → Option Nat)
    (hf : ∀ d, d < b2 + 2 → f (digitChar d) = some d) (n : Nat) :
    parseDigits (b2 + 2) f (natRepr b2 n) = some n := by
  unfold parseDigits
  rw [if_neg (natRepr_ne_nil b2 n), parseDigitsAux_repr b2 f hf n 0]
  norm_num

theorem charToDec_digitChar (d : Nat) (h : d < 10) :
    charToDec? (digitChar d) = some d := by
  interval_cases d <;> decide

theorem charToHex_digitChar (d : Nat) (h : d < 16) :
    charToHex? (digitChar d) = some d := by
  interval_cases d <;> decide

theorem decRepr_roundtrip (n : Nat) :
    parseDigits 10 charToDec? (decRepr n) = some n :=
  parseDigits_repr 8 charToDec? (fun d hd => charToDec_digitChar d hd) n

theorem hexRepr_roundtrip (n : Nat) :
    parseDigits 16 charToHex? (hexRepr n) = some n :=
  parseDigits_repr 14 charToHex? (fun d hd => charToHex_digitChar d hd) n

/-- Split a character list on every occurrence of `sep` (the behaviour
of Rust's `str::split` with a single-character pattern: `n` separators
yield `n + 1` parts, possibly empty). -/
def splitOnChar (sep : Char) : List Char → List (List Char)
  | [] => [[]]
  | c :: cs =>
      match splitOnChar sep cs with
      | [] => [[c]]
      | p :: ps => if c = sep then [] :: p :: ps else (c :: p) :: ps

theorem splitOnChar_ne_nil (sep : Char) : ∀ cs, splitOnChar sep cs ≠ [] := by
  intro cs
  cases cs with
  | nil => simp [splitOnChar]
  | cons c cs =>
      rw [splitOnChar]
      cases splitOnChar sep cs with
      | nil => simp
      | cons p ps =>
          by_cases h : c = sep <;> simp [h]

theorem splitOnChar_no_sep {sep : Char} : ∀ {cs : List Char}, sep ∉ cs →
    splitOnChar sep cs = [cs] := by
  intro cs
  induction cs with
  | nil => intro _; rfl
  | cons c cs ih =>
      intro hn
      have hc : c ≠ sep := fun h => hn (h ▸ List.mem_cons_self c cs)
      have hcs : sep ∉ cs := fun h => hn (List.mem_cons_of_mem c h)
      rw [splitOnChar, ih hcs]
      show (if c = sep then [] :: cs :: ([] : List (List Char))
            else (c :: cs) :: []) = [c :: cs]
      rw [if_neg hc]

theorem splitOnChar_append {sep : Char} : ∀ {l1 : List Char} (rest : List Char),
    sep ∉ l1 →
    splitOnChar sep (l1 ++ sep :: rest) = l1 :: splitOnChar sep rest := by
  intro l1
  induction l1 with
  | nil =>
      intro rest _
      show splitOnChar sep (sep :: rest) = [] :: splitOnChar sep rest
      rw [splitOnChar]
      have hne := splitOnChar_ne_nil sep rest
      cases h : splitOnChar sep rest with
      | nil => exact absurd h hne
      | cons p ps => simp
  | cons c l1 ih =>
      intro rest hn
      have hc : c ≠ sep := fun h => hn (h ▸ List.mem_cons_self c l1)
      have hl : sep ∉ l1 := fun h => hn (List.mem_cons_of_mem c h)
      show splitOnChar sep (c :: (l1 ++ sep :: rest)) = _
      rw [splitOnChar, ih rest hl]
      simp [hc]

/-- No leading zero: a multi-character numeral may not start with
`0` (the rule the std address parser enforces per octet). -/
def noLeadZero (cs : List Char) : Bool :=
  match cs with
  | c :: _ :: _ => c != Char.ofNat 48
  | _ => true

theorem digitChar_ne_zero {d : Nat} (hd : d < 16) (h0 : d ≠ 0) :
    digitChar d ≠ Char.ofNat 48 := by
  interval_cases d
  · exact absurd rfl h0
  all_goals decide

theorem natRepr_head_pos {b2 : Nat} (hb : b2 + 2 ≤ 16) :
    ∀ n, 1 ≤ n → ∃ c cs, natRepr b2 n = c :: cs ∧ c ≠ Char.ofNat 48 := by
  intro n
  induction n using Nat.strong_induction_on with
  | _ n ih =>
    intro h1
    by_cases h : n < b2 + 2
    · rw [natRepr_base h]
      exact ⟨digitChar n, [], rfl, digitChar_ne_zero (by omega) (by omega)⟩
    · obtain ⟨c, cs, heq, hc⟩ :=
        ih (n / (b2 + 2)) (Nat.div_lt_self (by omega) (by omega))
          (Nat.one_le_div_iff (by omega) |>.mpr (by omega))
      refine ⟨c, cs ++ [digitChar (n % (b2 + 2))], ?_, hc⟩
      rw [natRepr_step h, heq]
      rfl

theorem natRepr_noLeadZero {b2 : Nat} (hb : b2 + 2 ≤ 16) (n : Nat) :
    noLeadZero (natRepr b2 n) = true := by
  by_cases h : n < b2 + 2
  · rw [natRepr_base h]
    rfl
  · obtain ⟨c, cs, heq, hc⟩ := natRepr_head_pos hb (n / (b2 + 2))
      (Nat.one_le_div_iff (by omega) |>.mpr (by omega))
    rw [natRepr_step h, heq]
    cases cs with
    | nil =>
        show (c != Char.ofNat 48) = true
        simpa using hc
    | cons x xs =>
        show (c != Char.ofNat 48) = true
        simpa using hc

theorem digitsLE_lt (b2 : Nat) : ∀ n, ∀ d ∈ digitsLE b2 n, d < b2 + 2 := by
  intro n
  induction n using Nat.strong_induction_on with
  | _ n ih =>
    intro d hd
    by_cases h : n < b2 + 2
    · rw [show digitsLE b2 n = [n] from by rw [digitsLE_eq, if_pos h]] at hd
      have : d = n := by simpa using hd
      omega
    · rw [show digitsLE b2 n = n % (b2 + 2) :: digitsLE b2 (n / (b2 + 2)) from by
        rw [digitsLE_eq, if_neg h]] at hd
      rcases List.mem_cons.mp hd with rfl | hd'
      · exact Nat.mod_lt n (by omega)
      · exact ih (n / (b2 + 2)) (Nat.div_lt_self (by omega) (by omega)) d hd'

/-- Every character of a numeral is a digit character. -/
theorem natRepr_chars {b2 : Nat} (n : Nat) :
    ∀ c ∈ natRepr b2 n, ∃ d, d < b2 + 2 ∧ c = digitChar d := by
  intro c hc
  unfold natRepr at hc
  obtain ⟨d, hd, rfl⟩ := List.mem_map.mp hc
  exact ⟨d, digitsLE_lt b2 n d (List.mem_reverse.mp hd), rfl⟩

theorem digitChar_toNat {d : Nat} (hd : d < 16) :
    (digitChar d).toNat = if d < 10 then 48 + d else 87 + d := by
  interval_cases d <;> decide

/-- Digit characters avoid the structural separators used by the
textual forms. -/
theorem natRepr_no_special {b2 : Nat} (hb : b2 + 2 ≤ 16) (n : Nat)
    (c : Char) (hc : c.toNat < 48 ∨ (57 < c.toNat ∧ c.toNat < 87) ∨ 102 < c.toNat) :
    c ∉ natRepr b2 n := by
  intro hmem
  obtain ⟨d, hd, rfl⟩ := natRepr_chars n c hmem
  have := digitChar_toNat (by omega : d < 16)
  by_cases h10 : d < 10 <;> simp [h10] at this <;> omega

/-- Modelled from the spec: one octet of the standard dotted-quad IPv4
textual form — decimal digits, no leading zeros, value at most 255. -/
def parseOctet (cs : List Char) : Option Nat :=
  if noLeadZero cs = false then none
  else match parseDigits 10 charToDec? cs with
    | none => none
    | some v => if v ≤ 255 then some v else none

/-- Modelled from the spec: the standard IPv4 dotted-quad parser
(`a.b.c.d`, each octet per `parseOctet`). -/
def parseV4 (cs : List Char) : Option Nat :=
  match splitOnChar (Char.ofNat 46) cs with
  | [p0, p1, p2, p3] =>
      match parseOctet p0, parseOctet p1, parseOctet p2, parseOctet p3 with
      | some a, some b, some c, some d =>
          some (((a * 256 + b) * 256 + c) * 256 + d)
      | _, _, _, _ => none
  | _ => none

/-- Modelled from the spec: the standard IPv4 dotted-quad display. -/
def displayV4 (v : Nat) : List Char :=
  decRepr (v / 2 ^ 24 % 256)
    ++ Char.ofNat 46 :: decRepr (v / 2 ^ 16 % 256)
    ++ Char.ofNat 46 :: decRepr (v / 2 ^ 8 % 256)
    ++ Char.ofNat 46 :: decRepr (v % 256)

/-- Modelled from the spec: one 16-bit group of the IPv6 colon-hex
textual form — at most four hex digits (leading zeros allowed, both
letter cases accepted). -/
def parseHextet (cs : List Char) : Option Nat :=
  if cs.length > 4 then none
  else parseDigits 16 charToHex? cs

/-- Big-endian recombination of 16-bit groups. -/
def combineGroups (gs : List Nat) : Nat :=
  gs.foldl (fun acc g => acc * 65536 + g) 0

/-- Modelled from the spec: the IPv6 colon-hex textual parser — either
eight non-empty groups, or a single `::` compression standing for one
or more zero groups (the embedded-IPv4 tail form is not modelled). -/
def parseV6 (cs : List Char) : Option Nat :=
  let parts := splitOnChar (Char.ofNat 58) cs
  if parts.any (fun p => p.isEmpty) then
    let left := parts.takeWhile (fun p => !p.isEmpty)
    let restp := parts.dropWhile (fun p => !p.isEmpty)
    let mid := (restp.takeWhile (fun p => p.isEmpty)).length
    let right := restp.dropWhile (fun p => p.isEmpty)
    if right.any (fun p => p.isEmpty) then none
    else if ¬ ((1 ≤ left.length ∧ 1 ≤ right.length ∧ mid = 1) ∨
        (left.length = 0 ∧ 1 ≤ right.length ∧ mid = 2) ∨
        (1 ≤ left.length ∧ right.length = 0 ∧ mid = 2) ∨
        (left.length = 0 ∧ right.length = 0 ∧ mid = 3)) then none
    else if 8 ≤ left.length + right.length then none
    else
      match left.mapM parseHextet, right.mapM parseHextet with
      | some ls, some rs =>
          some (combineGroups
            (ls ++ List.replicate (8 - ls.length - rs.length) 0 ++ rs))
      | _, _ => none
  else
    match parts with
    | [p0, p1, p2, p3, p4, p5, p6, p7] =>
        match parseHextet p0, parseHextet p1, parseHextet p2, parseHextet p3,
            parseHextet p4, parseHextet p5, parseHextet p6, parseHextet p7 with
        | some g0, some g1, some g2, some g3, some g4, some g5, some g6, some g7 =>
            some (combineGroups [g0, g1, g2, g3, g4, g5, g6, g7])
        | _, _, _, _, _, _, _, _ => none
    | _ => none

/-- Modelled from the spec: the IPv6 colon-hex display, written here in
the uncompressed eight-group minimal-lowercase-hex form (the spec fixes
only "colon-hex textual form"; zero-run compression is not modelled). -/
def displayV6 (v : Nat) : List Char :=
  hexRepr (v / 2 ^ 112 % 65536)
    ++ Char.ofNat 58 :: hexRepr (v / 2 ^ 96 % 65536)
    ++ Char.ofNat 58 :: hexRepr (v / 2 ^ 80 % 65536)
    ++ Char.ofNat 58 :: hexRepr (v / 2 ^ 64 % 65536)
    ++ Char.ofNat 58 :: hexRepr (v / 2 ^ 48 % 65536)
    ++ Char.ofNat 58 :: hexRepr (v / 2 ^ 32 % 65536)
    ++ Char.ofNat 58 :: hexRepr (v / 2 ^ 16 % 65536)
    ++ Char.ofNat 58 :: hexRepr (v % 65536)

/-- Modelled from the spec: `IpAddr::from_str`, trying the IPv4 form
first and the IPv6 form second. -/
def parseIpAddr? (cs : List Char) : Option IpAddr :=
  match parseV4 cs with
  | some v => some (.v4 v)
  | none =>
      match parseV6 cs with
      | some v => some (.v6 v)
      | none => none

/-- Modelled from the spec: `IpAddr` display — dotted quad for V4,
colon-hex for V6. -/
def displayIp (a : IpAddr) : List Char :=
  match a with
  | .v4 v => displayV4 v
  | .v6 v => displayV6 v

/-- Whitespace trim (`str::trim`, restricted to the ASCII whitespace
the repository's inputs can contain). -/
def isSpaceChar (c : Char) : Bool :=
  c == Char.ofNat 32 || c == Char.ofNat 9 || c == Char.ofNat 10 || c == Char.ofNat 13

def trimChars (cs : List Char) : List Char :=
  ((cs.dropWhile isSpaceChar).reverse.dropWhile isSpaceChar).reverse

/- ------------------------------------------------------------------ -/
/- Round trips of the modelled address codec.                          -/
/- ------------------------------------------------------------------ -/

theorem natRepr_length_le {b2 : Nat} : ∀ (n k : Nat), 1 ≤ k →
    n < (b2 + 2) ^ k → (natRepr b2 n).length ≤ k := by
  intro n
  induction n using Nat.strong_induction_on with
  | _ n ih =>
    intro k hk hn
    by_cases h : n < b2 + 2
    · rw [natRepr_base h]
      simpa using hk
    · rw [natRepr_step h, List.length_append]
      have hk2 : 2 ≤ k := by
        by_contra hc
        have hk1 : k = 1 := by omega
        subst hk1
        rw [pow_one] at hn
        omega
      have hmul : (b2 + 2) ^ (k - 1) * (b2 + 2) = (b2 + 2) ^ k := by
        rw [← pow_succ]
        congr 1
        omega
      have hdiv : n / (b2 + 2) < (b2 + 2) ^ (k - 1) := by
        rw [Nat.div_lt_iff_lt_mul (by omega)]
        omega
      have hrec := ih (n / (b2 + 2))
        (Nat.div_lt_self (by omega) (by omega)) (k - 1) (by omega) hdiv
      have hone : ([digitChar (n % (b2 + 2))] : List Char).length = 1 := rfl
      omega

theorem parseOctet_repr {n : Nat} (h : n ≤ 255) :
    parseOctet (decRepr n) = some n := by
  unfold parseOctet decRepr
  rw [natRepr_noLeadZero (by omega) n, if_neg (by decide)]
  rw [show parseDigits 10 charToDec? (natRepr 8 n) = some n from decRepr_roundtrip n]
  show (if n ≤ 255 then some n else none) = some n
  rw [if_pos h]

theorem parseHextet_repr {n : Nat} (h : n < 65536) :
    parseHextet (hexRepr n) = some n := by
  unfold parseHextet
  have hlen : (hexRepr n).length ≤ 4 := by
    unfold hexRepr
    exact natRepr_length_le n 4 (by omega) (by norm_num; omega)
  rw [if_neg (by omega)]
  exact hexRepr_roundtrip n

theorem dot_not_in_decRepr (n : Nat) : Char.ofNat 46 ∉ decRepr n :=
  natRepr_no_special (by omega) n _ (by decide)

theorem colon_not_in_hexRepr (n : Nat) : Char.ofNat 58 ∉ hexRepr n :=
  natRepr_no_special (by omega) n _ (by decide)

theorem dot_not_in_hexRepr (n : Nat) : Char.ofNat 46 ∉ hexRepr n :=
  natRepr_no_special (by omega) n _ (by decide)

theorem splitOnChar_displayV4 (v : Nat) :
    splitOnChar (Char.ofNat 46) (displayV4 v)
      = [decRepr (v / 2 ^ 24 % 256), decRepr (v / 2 ^ 16 % 256),
        decRepr (v / 2 ^ 8 % 256), decRepr (v % 256)] := by
  rw [show displayV4 v
      = decRepr (v / 2 ^ 24 % 256) ++ Char.ofNat 46
        :: (decRepr (v / 2 ^ 16 % 256) ++ Char.ofNat 46
          :: (decRepr (v / 2 ^ 8 % 256) ++ Char.ofNat 46
            :: decRepr (v % 256))) from by
    unfold displayV4
    simp [List.append_assoc]]
  rw [splitOnChar_append _ (dot_not_in_decRepr _),
    splitOnChar_append _ (dot_not_in_decRepr _),
    splitOnChar_append _ (dot_not_in_decRepr _),
    splitOnChar_no_sep (dot_not_in_decRepr _)]

theorem parseV4_displayV4 {v : Nat} (hv : v < 2 ^ 32) :
    parseV4 (displayV4 v) = some v := by
  unfold parseV4
  rw [splitOnChar_displayV4]
  show (match parseOctet (decRepr (v / 2 ^ 24 % 256)),
      parseOctet (decRepr (v / 2 ^ 16 % 256)),
      parseOctet (decRepr (v / 2 ^ 8 % 256)),
      parseOctet (decRepr (v % 256)) with
    | some a, some b, some c, some d =>
        some (((a * 256 + b) * 256 + c) * 256 + d)
    | _, _, _, _ => none) = some v
  have hb0 : v / 2 ^ 24 % 256 ≤ 255 := by omega
  have hb1 : v / 2 ^ 16 % 256 ≤ 255 := by omega
  have hb2 : v / 2 ^ 8 % 256 ≤ 255 := by omega
  have hb3 : v % 256 ≤ 255 := by omega
  rw [parseOctet_repr hb0, parseOctet_repr hb1, parseOctet_repr hb2,
    parseOctet_repr hb3]
  show some _ = some v
  congr 1
  have h24 : (2 : Nat) ^ 24 = 16777216 := by norm_num
  have h16 : (2 : Nat) ^ 16 = 65536 := by norm_num
  have h8 : (2 : Nat) ^ 8 = 256 := by norm_num
  have h32 : (2 : Nat) ^ 32 = 4294967296 := by norm_num
  rw [h24, h16, h8] at *
  rw [h32] at hv
  omega

theorem not_in_sep_cons {c sep : Char} {l : List Char} (hcs : c ≠ sep)
    (hl : c ∉ l) : c ∉ sep :: l := by
  intro h
  rcases List.mem_cons.mp h with h | h
  · exact hcs h
  · exact hl h

theorem not_in_append {c : Char} {l1 l2 : List Char} (h1 : c ∉ l1)
    (h2 : c ∉ l2) : c ∉ l1 ++ l2 := by
  intro h
  rcases List.mem_append.mp h with h | h
  · exact h1 h
  · exact h2 h

/-- Characters outside the digit ranges and distinct from the colon do
not occur in a v6 display. -/
theorem not_in_displayV6 (v : Nat) {c : Char}
    (hc : c.toNat < 48 ∨ (57 < c.toNat ∧ c.toNat < 87) ∨ 102 < c.toNat)
    (hcol : c ≠ Char.ofNat 58) : c ∉ displayV6 v := by
  have hhex : ∀ m : Nat, c ∉ hexRepr m :=
    fun m => natRepr_no_special (by omega) m c hc
  unfold displayV6
  refine not_in_append (not_in_append (not_in_append (not_in_append
    (not_in_append (not_in_append (not_in_append (hhex _) ?_) ?_) ?_) ?_)
      ?_) ?_) ?_ <;>
    exact not_in_sep_cons hcol (hhex _)

/-- Characters outside the digit ranges and distinct from the dot do
not occur in a v4 display. -/
theorem not_in_displayV4 (v : Nat) {c : Char}
    (hc : c.toNat < 48 ∨ (57 < c.toNat ∧ c.toNat < 87) ∨ 102 < c.toNat)
    (hdot : c ≠ Char.ofNat 46) : c ∉ displayV4 v := by
  have hdec : ∀ m : Nat, c ∉ decRepr m :=
    fun m => natRepr_no_special (by omega) m c hc
  unfold displayV4
  refine not_in_append (not_in_append (not_in_append (hdec _) ?_) ?_) ?_ <;>
    exact not_in_sep_cons hdot (hdec _)

theorem isEmpty_false_of_ne_nil {α : Type} {l : List α} (h : l ≠ []) :
    l.isEmpty = false := by
  cases l with
  | nil => exact absurd rfl h
  | cons a as => rfl

theorem splitOnChar_displayV6 (v : Nat) :
    splitOnChar (Char.ofNat 58) (displayV6 v)
      = [hexRepr (v / 2 ^ 112 % 65536), hexRepr (v / 2 ^ 96 % 65536),
        hexRepr (v / 2 ^ 80 % 65536), hexRepr (v / 2 ^ 64 % 65536),
        hexRepr (v / 2 ^ 48 % 65536), hexRepr (v / 2 ^ 32 % 65536),
        hexRepr (v / 2 ^ 16 % 65536), hexRepr (v % 65536)] := by
  rw [show displayV6 v
      = hexRepr (v / 2 ^ 112 % 65536) ++ Char.ofNat 58
        :: (hexRepr (v / 2 ^ 96 % 65536) ++ Char.ofNat 58
          :: (hexRepr (v / 2 ^ 80 % 65536) ++ Char.ofNat 58
            :: (hexRepr (v / 2 ^ 64 % 65536) ++ Char.ofNat 58
              :: (hexRepr (v / 2 ^ 48 % 65536) ++ Char.ofNat 58
                :: (hexRepr (v / 2 ^ 32 % 65536) ++ Char.ofNat 58
                  :: (hexRepr (v / 2 ^ 16 % 65536) ++ Char.ofNat 58
                    :: hexRepr (v % 65536))))))) from by
    unfold displayV6
    simp [List.append_assoc]]
  rw [splitOnChar_append _ (colon_not_in_hexRepr _),
    splitOnChar_append _ (colon_not_in_hexRepr _),
    splitOnChar_append _ (colon_not_in_hexRepr _),
    splitOnChar_append _ (colon_not_in_hexRepr _),
    splitOnChar_append _ (colon_not_in_hexRepr _),
    splitOnChar_append _ (colon_not_in_hexRepr _),
    splitOnChar_append _ (colon_not_in_hexRepr _),
    splitOnChar_no_sep (colon_not_in_hexRepr _)]

theorem parseV6_displayV6 {v : Nat} (hv : v < 2 ^ 128) :
    parseV6 (displayV6 v) = some v := by
  unfold parseV6
  rw [splitOnChar_displayV6]
  have hemp : ∀ m : Nat, (hexRepr m).isEmpty = false :=
    fun m => isEmpty_false_of_ne_nil (natRepr_ne_nil 14 m)
  rw [if_neg (by
    simp only [List.any_cons, List.any_nil, hemp, Bool.or_self, Bool.or_false]
    simp)]
  show (match parseHextet (hexRepr (v / 2 ^ 112 % 65536)),
      parseHextet (hexRepr (v / 2 ^ 96 % 65536)),
      parseHextet (hexRepr (v / 2 ^ 80 % 65536)),
      parseHextet (hexRepr (v / 2 ^ 64 % 65536)),
      parseHextet (hexRepr (v / 2 ^ 48 % 65536)),
      parseHextet (hexRepr (v / 2 ^ 32 % 65536)),
      parseHextet (hexRepr (v / 2 ^ 16 % 65536)),
      parseHextet (hexRepr (v % 65536)) with
    | some g0, some g1, some g2, some g3, some g4, some g5, some g6, some g7 =>
        some (combineGroups [g0, g1, g2, g3, g4, g5, g6, g7])
    | _, _, _, _, _, _, _, _ => none) = some v
  have hbm : ∀ x : Nat, x % 65536 < 65536 := fun x => Nat.mod_lt x (by omega)
  rw [parseHextet_repr (hbm _), parseHextet_repr (hbm _), parseHextet_repr (hbm _),
    parseHextet_repr (hbm _), parseHextet_repr (hbm _), parseHextet_repr (hbm _),
    parseHextet_repr (hbm _), parseHextet_repr (hbm _)]
  show some (combineGroups [v / 2 ^ 112 % 65536, v / 2 ^ 96 % 65536,
    v / 2 ^ 80 % 65536, v / 2 ^ 64 % 65536, v / 2 ^ 48 % 65536,
    v / 2 ^ 32 % 65536, v / 2 ^ 16 % 65536, v % 65536]) = some v
  congr 1
  unfold combineGroups
  simp only [List.foldl_cons, List.foldl_nil]
  have e112 : (2 : Nat) ^ 112 = 5192296858534827628530496329220096 := by norm_num
  have e96 : (2 : Nat) ^ 96 = 79228162514264337593543950336 := by norm_num
  have e80 : (2 : Nat) ^ 80 = 1208925819614629174706176 := by norm_num
  have e64 : (2 : Nat) ^ 64 = 18446744073709551616 := by norm_num
  have e48 : (2 : Nat) ^ 48 = 281474976710656 := by norm_num
  have e32 : (2 : Nat) ^ 32 = 4294967296 := by norm_num
  have e16 : (2 : Nat) ^ 16 = 65536 := by norm_num
  have e128 : (2 : Nat) ^ 128 = 340282366920938463463374607431768211456 := by norm_num
  rw [e112, e96, e80, e64, e48, e32, e16]
  rw [e128] at hv
  omega

theorem parseV4_displayV6 (v : Nat) : parseV4 (displayV6 v) = none := by
  unfold parseV4
  rw [splitOnChar_no_sep (not_in_displayV6 v (by decide) (by decide))]

/-- The modelled address parser inverts the modelled display on every
well-formed address. -/
theorem parseIpAddr_displayIp {a : IpAddr} (hw : a.wf) :
    parseIpAddr? (displayIp a) = some a := by
  cases a with
  | v4 v =>
      unfold parseIpAddr? displayIp
      rw [parseV4_displayV4 hw]
  | v6 v =>
      unfold parseIpAddr? displayIp
      rw [parseV4_displayV6, parseV6_displayV6 hw]

theorem dropWhile_eq_self_of {α : Type} {p : α → Bool} {l : List α}
    (h : ∀ c ∈ l, p c = false) : l.dropWhile p = l := by
  cases l with
  | nil => rfl
  | cons a as =>
      exact List.dropWhile_cons_of_neg (by simp [h a (List.mem_cons_self a as)])

theorem trimChars_eq_self {cs : List Char}
    (h : ∀ c ∈ cs, isSpaceChar c = false) : trimChars cs = cs := by
  unfold trimChars
  rw [dropWhile_eq_self_of h,
    dropWhile_eq_self_of (fun c hc => h c (List.mem_reverse.mp hc))]
  exact List.reverse_reverse cs

theorem no_space_in_natRepr {b2 : Nat} (hb : b2 + 2 ≤ 16) (n : Nat) :
    ∀ c ∈ natRepr b2 n, isSpaceChar c = false := by
  intro c hm
  obtain ⟨d, hd, rfl⟩ := natRepr_chars n c hm
  have ht := digitChar_toNat (show d < 16 by omega)
  have h48 : 48 ≤ (digitChar d).toNat := by
    by_cases h10 : d < 10 <;> simp [h10] at ht <;> omega
  unfold isSpaceChar
  have hne : ∀ k : Nat, k < 48 → digitChar d ≠ Char.ofNat k := by
    intro k hk heq
    have hk2 : (Char.ofNat k).toNat = (digitChar d).toNat := by rw [heq]
    have hk3 : k < 55296 := by omega
    have hk4 : (Char.ofNat k).toNat = k := by
      unfold Char.ofNat
      split
      · rfl
      · next hc =>
          exfalso
          apply hc
          exact Or.inl (by exact Nat.lt_of_lt_of_le hk3 (by norm_num))
    omega
  have h32 := hne 32 (by norm_num)
  have h9 := hne 9 (by norm_num)
  have h10 := hne 10 (by norm_num)
  have h13 := hne 13 (by norm_num)
  simp [h32, h9, h10, h13]

theorem no_space_in_decRepr (n : Nat) :
    ∀ c ∈ decRepr n, isSpaceChar c = false :=
  no_space_in_natRepr (by omega) n

theorem no_space_in_displayIp (a : IpAddr) :
    ∀ c ∈ displayIp a, isSpaceChar c = false := by
  intro c hm
  by_contra hsp
  have hsp' : isSpaceChar c = true := by
    cases hx : isSpaceChar c
    · exact absurd hx hsp
    · rfl
  have hcases : c = Char.ofNat 32 ∨ c = Char.ofNat 9 ∨ c = Char.ofNat 10
      ∨ c = Char.ofNat 13 := by
    unfold isSpaceChar at hsp'
    simp only [Bool.or_eq_true, beq_iff_eq] at hsp'
    tauto
  have hwin : c.toNat < 48 := by
    rcases hcases with rfl | rfl | rfl | rfl <;> decide
  have hne58 : c ≠ Char.ofNat 58 := by
    rcases hcases with rfl | rfl | rfl | rfl <;> decide
  have hne46 : c ≠ Char.ofNat 46 := by
    rcases hcases with rfl | rfl | rfl | rfl <;> decide
  cases a with
  | v4 v => exact not_in_displayV4 v (Or.inl hwin) hne46 hm
  | v6 v => exact not_in_displayV6 v (Or.inl hwin) hne58 hm

/-- Parse of an unsigned decimal with an optional leading `+`
(Rust's `FromStr` for the unsigned integer types), bounded by the
type's size. -/
def parseUNat (bound : Nat) (cs : List Char) : Option Nat :=
  let cs2 := match cs with
    | c :: rest => if c = Char.ofNat 43 then rest else cs
    | [] => cs
  match parseDigits 10 charToDec? cs2 with
  | some v => if v < bound then some v else none
  | none => none

/-- `u8::from_str`. -/
def parseU8? (cs : List Char) : Option Nat := parseUNat 256 cs

/-- `u32::from_str`. -/
def parseU32? (cs : List Char) : Option Nat := parseUNat 4294967296 cs

theorem parseUNat_decRepr {bound n : Nat} (h : n < bound) :
    parseUNat bound (decRepr n) = some n := by
  unfold parseUNat
  have hne : decRepr n ≠ [] := natRepr_ne_nil 8 n
  cases hd : decRepr n with
  | nil => exact absurd hd hne
  | cons c rest =>
      have hplus : c ≠ Char.ofNat 43 := by
        have hmem : c ∈ decRepr n := by
          rw [hd]
          exact List.mem_cons_self c rest
        obtain ⟨d, hdlt, heq⟩ := natRepr_chars n c hmem
        have ht := digitChar_toNat (show d < 16 by omega)
        intro habs
        have h43 : c.toNat = 43 := by rw [habs]; decide
        rw [heq] at h43
        by_cases h10 : d < 10 <;> simp [h10] at ht <;> omega
      show (match parseDigits 10 charToDec? (if c = Char.ofNat 43 then rest else c :: rest) with
        | some v => if v < bound then some v else none
        | none => none) = some n
      rw [if_neg hplus]
      rw [← hd]
      rw [decRepr_roundtrip n]
      show (if n < bound then some n else none) = some n
      rw [if_pos h]

/-- Errors of `Cidr::from_str` (structs.rs builds `String` messages
from the `ERR_CIDR_*` constants; only which message is built matters,
so they are modelled as a closed enum). -/
inductive CidrErr where
  | InvAddr
  | Fmt
  | InvAddrInCidr
  | InvPre
  | InvV4Pre
  | InvV6Pre
deriving DecidableEq, Repr

/-- `Cidr::from_str` (structs.rs): a slash-free string parses (after
trimming) as a bare address and yields a host CIDR at the family's full
width; otherwise the string must split into exactly two parts on `/`,
the trimmed address and prefix are parsed, and the prefix is checked
against the family's width.  The address parse is the spec-modelled
`parseIpAddr?`. -/
def Cidr.from_str (s : String) : Except CidrErr Cidr :=
  let cs := s.toList
  if (cs.contains (Char.ofNat 47)) = false then
    match parseIpAddr? (trimChars cs) with
    | none => .error .InvAddr
    | some a =>
        .ok ⟨a, match a with | .v4 _ => IPV4_BITS | .v6 _ => IPV6_BITS⟩
  else
    match splitOnChar (Char.ofNat 47) cs with
    | [addrp, prep] =>
        match parseIpAddr? (trimChars addrp) with
        | none => .error .InvAddrInCidr
        | some a =>
            match parseU8? (trimChars prep) with
            | none => .error .InvPre
            | some p =>
                match a with
                | .v4 _ => if p > IPV4_BITS then .error .InvV4Pre else .ok ⟨a, p⟩
                | .v6 _ => if p > IPV6_BITS then .error .InvV6Pre else .ok ⟨a, p⟩
    | _ => .error .Fmt

/-- `Display for Cidr`: the stored address, a slash, and the prefix in
decimal — no normalization. -/
def Cidr.display (c : Cidr) : String :=
  String.mk (displayIp c.addr ++ Char.ofNat 47 :: decRepr c.pfx)

theorem slash_not_in_displayIp (a : IpAddr) :
    Char.ofNat 47 ∉ displayIp a := by
  cases a with
  | v4 v => exact not_in_displayV4 v (by decide) (by decide)
  | v6 v => exact not_in_displayV6 v (by decide) (by decide)

theorem slash_not_in_decRepr (n : Nat) : Char.ofNat 47 ∉ decRepr n :=
  natRepr_no_special (by omega) n _ (by decide)

/-- C9 (amended): parsing inverts display on every well-formed CIDR
value of the modelled codec, so `format(parse(s)) = s` holds exactly
for canonical strings — the display image `address/prefix` with the
address in its canonical display form and the prefix in plain decimal.
Strings accepted through the slashless path (counterexample) or in
non-canonical spelling re-display canonically. -/
theorem C9_cidr_roundtrip_amended (c : Cidr) (hw : c.addr.wf)
    (hp : c.pfx ≤ c.addr.fam.bits) :
    Cidr.from_str (Cidr.display c) = .ok c ∧
    (Cidr.from_str (Cidr.display c)).map Cidr.display
      = .ok (Cidr.display c) := by
  have hmain : Cidr.from_str (Cidr.display c) = .ok c := by
    unfold Cidr.from_str Cidr.display
    have hlist : (String.mk (displayIp c.addr ++ Char.ofNat 47 :: decRepr c.pfx)).toList
        = displayIp c.addr ++ Char.ofNat 47 :: decRepr c.pfx := rfl
    rw [hlist]
    have hcont : ((displayIp c.addr ++ Char.ofNat 47 :: decRepr c.pfx).contains
        (Char.ofNat 47)) = true := by
      have hm : Char.ofNat 47 ∈ displayIp c.addr ++ Char.ofNat 47 :: decRepr c.pfx :=
        List.mem_append.mpr (Or.inr (List.mem_cons_self _ _))
      exact List.elem_eq_true_of_mem hm
    rw [if_neg (by rw [hcont]; exact fun h => Bool.noConfusion h)]
    rw [splitOnChar_append _ (slash_not_in_displayIp c.addr),
      splitOnChar_no_sep (slash_not_in_decRepr c.pfx)]
    show (match parseIpAddr? (trimChars (displayIp c.addr)) with
      | none => Except.error CidrErr.InvAddrInCidr
      | some a =>
          match parseU8? (trimChars (decRepr c.pfx)) with
          | none => Except.error CidrErr.InvPre
          | some p =>
              match a with
              | IpAddr.v4 _ =>
                  if p > IPV4_BITS then Except.error CidrErr.InvV4Pre
                  else Except.ok ⟨a, p⟩
              | IpAddr.v6 _ =>
                  if p > IPV6_BITS then Except.error CidrErr.InvV6Pre
                  else Except.ok ⟨a, p⟩) = Except.ok c
    rw [trimChars_eq_self (no_space_in_displayIp c.addr),
      trimChars_eq_self (no_space_in_decRepr c.pfx)]
    rw [parseIpAddr_displayIp hw]
    rw [show parseU8? (decRepr c.pfx) = some c.pfx from
      parseUNat_decRepr (by
        have := IpFam.bits_le c.addr.fam
        omega)]
    cases hc : c.addr with
    | v4 v =>
        rw [hc] at hp
        have : ¬ c.pfx > IPV4_BITS := by
          have hb : IpFam.bits (IpAddr.fam (IpAddr.v4 v)) = 32 := rfl
          rw [hb] at hp
          unfold IPV4_BITS
          omega
        show (if c.pfx > IPV4_BITS then Except.error CidrErr.InvV4Pre
          else Except.ok ⟨IpAddr.v4 v, c.pfx⟩) = Except.ok c
        rw [if_neg this, ← hc]
    | v6 v =>
        rw [hc] at hp
        have : ¬ c.pfx > IPV6_BITS := by
          have hb : IpFam.bits (IpAddr.fam (IpAddr.v6 v)) = 128 := rfl
          rw [hb] at hp
          unfold IPV6_BITS
          omega
        show (if c.pfx > IPV6_BITS then Except.error CidrErr.InvV6Pre
          else Except.ok ⟨IpAddr.v6 v, c.pfx⟩) = Except.ok c
        rw [if_neg this, ← hc]
  refine ⟨hmain, ?_⟩
  rw [hmain]
  rfl

/-- C9 (counterexample): the slashless string `10.0.0.1` parses as a
Cidr but re-displays as `10.0.0.1/32`, so `format(parse(s)) = s` fails
on it. -/
theorem C9_counterexample :
    (Cidr.from_str "10.0.0.1").map Cidr.display = .ok "10.0.0.1/32" ∧
    ("10.0.0.1/32" : String) ≠ "10.0.0.1" := by
  constructor
  · rfl
  · decide

/-- C9 (witness): the amended round trip at the concrete value
`10.0.0.1/24`. -/
theorem C9_witness :
    Cidr.from_str (Cidr.display ⟨IpAddr.v4 167772161, 24⟩)
      = .ok ⟨IpAddr.v4 167772161, 24⟩ ∧
    (Cidr.from_str (Cidr.display ⟨IpAddr.v4 167772161, 24⟩)).map Cidr.display
      = .ok (Cidr.display ⟨IpAddr.v4 167772161, 24⟩) :=
  C9_cidr_roundtrip_amended ⟨IpAddr.v4 167772161, 24⟩ (by decide) (by decide)

/-- C10: a slash-free string that parses (after trimming) as a plain
address yields a host CIDR carrying that address with the family's
full-width prefix. -/
theorem C10_from_str_no_slash (s : String) (a : IpAddr)
    (hns : (s.toList.contains (Char.ofNat 47)) = false)
    (hp : parseIpAddr? (trimChars s.toList) = some a) :
    Cidr.from_str s = .ok ⟨a, a.fam.bits⟩ := by
  unfold Cidr.from_str
  rw [if_pos hns, hp]
  cases a with
  | v4 v => rfl
  | v6 v => rfl

/-- C10 (witness): the theorem applied at the literal `10.0.0.1`. -/
theorem C10_witness :
    Cidr.from_str "10.0.0.1"
      = .ok ⟨IpAddr.v4 167772161, (IpAddr.v4 167772161).fam.bits⟩ :=
  C10_from_str_no_slash "10.0.0.1" (IpAddr.v4 167772161) (by decide) (by decide)

/- ------------------------------------------------------------------ -/
/- The bounded parsing entry point (addresses.rs).                     -/
/- ------------------------------------------------------------------ -/

/-- `IP_DELIMS` test of addresses.rs line 82: the end part of a range
token counts as a full address literal iff it contains `.` or `:`. -/
def hasIpDelim (cs : List Char) : Bool :=
  cs.contains (Char.ofNat 46) || cs.contains (Char.ofNat 58)

/-- `parse_short_range_end` (addresses.rs): parse the end token as a
bare decimal (`u32`), then substitute it for the last octet (v4, must
be ≤ 255) or the last 16-bit group (v6, must be ≤ 65535) of the start
address, keeping all higher-order portions. -/
def parse_short_range_end (begIp : IpAddr) (endStr : List Char) :
    Except AddressError IpAddr :=
  match parseU32? endStr with
  | none => .error (.InvalidRangeEndVal (String.mk endStr))
  | some v =>
      match begIp with
      | .v4 b =>
          if v > 255 then .error (.InvalidV4Octet v)
          else .ok (.v4 (b / 256 * 256 + v))
      | .v6 b =>
          if v > 65535 then .error (.InvalidV6Hextet v)
          else .ok (.v6 (b / 65536 * 65536 + v))

/-- `parse_ip_range` (addresses.rs): split on the dash into exactly two
parts, trim, parse the start as a full literal, resolve the end by the
delimiter test, and validate through `IpRange::new`. -/
def parse_ip_range (arg : String) : Except AddressError IpRange :=
  match splitOnChar (Char.ofNat 45) arg.toList with
  | [p0, p1] =>
      let begStr := trimChars p0
      let endStr := trimChars p1
      match parseIpAddr? begStr with
      | none => .error (.InvalidRangeBegIp (String.mk begStr))
      | some begIp =>
          match (if hasIpDelim endStr then
              match parseIpAddr? endStr with
              | none => Except.error (AddressError.InvalidRangeEndIp (String.mk endStr))
              | some e => Except.ok e
            else parse_short_range_end begIp endStr) with
          | .error e => .error e
          | .ok endIp => IpRange.new begIp endIp
  | _ => .error (.InvalidRangeFmt arg)

/-- `generate_ip_range` (addresses.rs): materialize all addresses from
start to end inclusive, guarded by `MAX_RANGE_SIZE` (the v6 count is
the saturating one from the source). -/
def generate_ip_range (start endp : IpAddr) :
    Except AddressError (List IpAddr) :=
  match start, endp with
  | .v4 a, .v4 b =>
      if a > b then .error (.RangeOrder (.v4 a) (.v4 b))
      else if b - a + 1 > MAX_RANGE_SIZE then .error (.RangeTooLarge (b - a + 1))
      else .ok ((List.range (b - a + 1)).map (fun i => .v4 (a + i)))
  | .v6 a, .v6 b =>
      if a > b then .error (.RangeOrder (.v6 a) (.v6 b))
      else if satAdd128 (b - a) 1 > MAX_RANGE_SIZE then
        .error (.RangeTooLarge (satAdd128 (b - a) 1))
      else .ok ((List.range (b - a + 1)).map (fun i => .v6 (a + i)))
  | s, e => .error (.Mismatch s e)

/-- Modelled from the spec: the `ipnet` crate's `IpNet::from_str` —
`address/prefix` with the prefix within the family's bit width (no
trimming; host bits are kept as given). -/
def parseIpNet? (cs : List Char) : Option (IpAddr × Nat) :=
  match splitOnChar (Char.ofNat 47) cs with
  | [a, p] =>
      match parseIpAddr? a, parseU8? p with
      | some addr, some pfx =>
          match addr with
          | .v4 _ => if pfx ≤ 32 then some (addr, pfx) else none
          | .v6 _ => if pfx ≤ 128 then some (addr, pfx) else none
      | _, _ => none
  | _ => none

/-- Modelled from the spec: `ipnet`'s `hosts()` — for v4, the usable
host addresses with the network and broadcast addresses excluded; for
v6, every address of the block. -/
def hostsOf (net : IpAddr × Nat) : List IpAddr :=
  match net.1 with
  | .v4 a =>
      let mask := mask_u128 32 (min net.2 32) % 2 ^ 32
      let network := Nat.land a mask
      let bcast := Nat.lor network (2 ^ 32 - 1 - mask)
      if bcast ≤ network + 1 then []
      else (List.range (bcast - network - 1)).map (fun i => .v4 (network + 1 + i))
  | .v6 a =>
      let mask := mask_u128 128 (min net.2 128)
      let network := Nat.land a mask
      let bcast := Nat.lor network (U128MAX - mask)
      (List.range (bcast - network + 1)).map (fun i => .v6 (network + i))

/-- The CIDR branch of `parse_ip_or_range` (addresses.rs lines 30–45):
count the block's addresses as `1u128 << (bits - prefix)`, fail with
`RangeTooLarge` when the count exceeds `MAX_RANGE_SIZE`, otherwise
flatten to the host list, falling back to the (unnormalized) network
address when that list is empty. The count is a shift on `u128`, so at
shift amount 128 — a v6 `/0` — the Rust expression overflows: it panics
under debug assertions, and in release the shift amount is masked
modulo 128, yielding a count of 1 that bypasses the guard. The
embedding follows the defined release semantics (`% 128` on the shift
amount). -/
def cidrExpand (net : IpAddr × Nat) : Except AddressError (List IpAddr) :=
  let bits := net.1.fam.bits
  let num := 2 ^ ((bits - net.2) % 128)
  if num > MAX_RANGE_SIZE then .error (.RangeTooLarge num)
  else
    let hosts := hostsOf net
    if hosts.isEmpty then .ok [net.1] else .ok hosts

/-- `parse_ip_or_range` (addresses.rs): try a single address, then a
CIDR, then a dash range, in that order. -/
def parse_ip_or_range (arg : String) : Except AddressError (List IpAddr) :=
  match parseIpAddr? arg.toList with
  | some ip => .ok [ip]
  | none =>
      match parseIpNet? arg.toList with
      | some net => cidrExpand net
      | none =>
          if arg.toList.contains (Char.ofNat 45) then
            match parse_ip_range arg with
            | .error e => .error e
            | .ok r => generate_ip_range r.beg r.endp
          else .error (.Invalid arg)

/-- Any CIDR whose count passes the guard expands successfully: both
branches of the host-list fallback return `ok`. -/
theorem cidrExpand_isOk {net : IpAddr × Nat}
    (h : ¬ 2 ^ ((net.1.fam.bits - net.2) % 128) > MAX_RANGE_SIZE) :
    (cidrExpand net).isOk = true := by
  unfold cidrExpand
  rw [if_neg h]
  show (if (hostsOf net).isEmpty = true then Except.ok [net.1]
    else Except.ok (hostsOf net)).isOk = true
  cases (hostsOf net).isEmpty <;> rfl

/-- C3 (counterexample): `parse_ip_or_range "10.0.0.0/16"` succeeds —
the count 65536 does not exceed the guard's strict bound — contrary to
the claim that it fails with `RangeTooLarge` (the repository's own
`test_big_v4` asserts the success). -/
theorem C3_counterexample :
    (parse_ip_or_range "10.0.0.0/16").isOk = true ∧
    parse_ip_or_range "10.0.0.0/16"
      ≠ .error (.RangeTooLarge 65536) := by
  have h1 : parseIpAddr? ("10.0.0.0/16").toList = none := by rfl
  have h2 : parseIpNet? ("10.0.0.0/16").toList = some (IpAddr.v4 167772160, 16) := by
    rfl
  have hok : (parse_ip_or_range "10.0.0.0/16").isOk = true := by
    unfold parse_ip_or_range
    rw [h1, h2]
    show (cidrExpand (IpAddr.v4 167772160, 16)).isOk = true
    exact cidrExpand_isOk (by decide)
  refine ⟨hok, ?_⟩
  intro hbad
  rw [hbad] at hok
  exact Bool.noConfusion hok

/-- C3 (amended): a CIDR whose shift `bits - prefix` is below 128 and
whose address count `2^(bits - prefix)` strictly exceeds the fixed
maximum of 65536 fails with `RangeTooLarge` carrying the count. The
v6 `/0` block sits outside the guard: its shift amount of 128 overflows
the `u128` shift (debug panic; in release the masked shift yields a
count of 1), so `parse_ip_or_range "::/0"` is not rejected as too
large. And the count of `10.0.0.0/16` is exactly 65536, which does not
exceed the bound, so that input succeeds instead of failing. -/
theorem C3_range_guard_amended :
    (∀ net : IpAddr × Nat,
      net.1.fam.bits - net.2 < 128 →
      2 ^ (net.1.fam.bits - net.2) > MAX_RANGE_SIZE →
      cidrExpand net = .error (.RangeTooLarge (2 ^ (net.1.fam.bits - net.2)))) ∧
    (parse_ip_or_range "::/0").isOk = true ∧
    (parse_ip_or_range "10.0.0.0/16").isOk = true := by
  refine ⟨?_, ?_, C3_counterexample.1⟩
  · intro net hlt h
    unfold cidrExpand
    show (if 2 ^ ((net.1.fam.bits - net.2) % 128) > MAX_RANGE_SIZE then
        Except.error (AddressError.RangeTooLarge (2 ^ ((net.1.fam.bits - net.2) % 128)))
      else if (hostsOf net).isEmpty = true then Except.ok [net.1]
        else Except.ok (hostsOf net))
      = Except.error (AddressError.RangeTooLarge (2 ^ (net.1.fam.bits - net.2)))
    rw [Nat.mod_eq_of_lt hlt, if_pos h]
  · have h1 : parseIpAddr? ("::/0").toList = none := by rfl
    have h2 : parseIpNet? ("::/0").toList = some (IpAddr.v6 0, 0) := by rfl
    unfold parse_ip_or_range
    rw [h1, h2]
    show (cidrExpand (IpAddr.v6 0, 0)).isOk = true
    exact cidrExpand_isOk (by decide)

/-- C3 (witness): the guard theorem applied at the v4 `/8` block,
whose shift 24 is in range and whose count `2^24` exceeds the bound. -/
theorem C3_witness :
    cidrExpand (IpAddr.v4 0, 8)
      = .error (.RangeTooLarge (2 ^ ((IpAddr.v4 0).fam.bits - 8))) :=
  C3_range_guard_amended.1 (IpAddr.v4 0, 8) (by decide) (by decide)

/-- C7: a range token whose end part has no address delimiter goes
through the short form: the bare decimal end value replaces exactly the
last octet (v4, `InvalidV4Octet` above 255) or last 16-bit group (v6,
`InvalidV6Hextet` above 65535) of the start address, higher-order
portions copied unchanged; and `parse_ip_or_range "10.0.0.1-5"`
returns exactly 10.0.0.1 through 10.0.0.5. -/
theorem C7_short_form :
    (∀ (b v : Nat) (endStr : List Char), parseU32? endStr = some v →
      (v ≤ 255 →
        parse_short_range_end (.v4 b) endStr = .ok (.v4 (b / 256 * 256 + v))) ∧
      (255 < v →
        parse_short_range_end (.v4 b) endStr = .error (.InvalidV4Octet v))) ∧
    (∀ (b v : Nat) (endStr : List Char), parseU32? endStr = some v →
      (v ≤ 65535 →
        parse_short_range_end (.v6 b) endStr = .ok (.v6 (b / 65536 * 65536 + v))) ∧
      (65535 < v →
        parse_short_range_end (.v6 b) endStr = .error (.InvalidV6Hextet v))) ∧
    (∀ (arg : String) (p0 p1 : List Char) (begIp : IpAddr),
      splitOnChar (Char.ofNat 45) arg.toList = [p0, p1] →
      parseIpAddr? (trimChars p0) = some begIp →
      hasIpDelim (trimChars p1) = false →
      parse_ip_range arg
        = match parse_short_range_end begIp (trimChars p1) with
          | .error e => .error e
          | .ok endIp => IpRange.new begIp endIp) ∧
    parse_ip_or_range "10.0.0.1-5"
      = .ok [IpAddr.v4 167772161, IpAddr.v4 167772162, IpAddr.v4 167772163,
          IpAddr.v4 167772164, IpAddr.v4 167772165] := by
  refine ⟨?_, ?_, ?_, by rfl⟩
  · intro b v endStr hp
    unfold parse_short_range_end
    rw [hp]
    constructor
    · intro hv
      show (if v > 255 then Except.error (AddressError.InvalidV4Octet v)
        else Except.ok (IpAddr.v4 (b / 256 * 256 + v))) = _
      rw [if_neg (by omega)]
    · intro hv
      show (if v > 255 then Except.error (AddressError.InvalidV4Octet v)
        else Except.ok (IpAddr.v4 (b / 256 * 256 + v))) = _
      rw [if_pos (by omega)]
  · intro b v endStr hp
    unfold parse_short_range_end
    rw [hp]
    constructor
    · intro hv
      show (if v > 65535 then Except.error (AddressError.InvalidV6Hextet v)
        else Except.ok (IpAddr.v6 (b / 65536 * 65536 + v))) = _
      rw [if_neg (by omega)]
    · intro hv
      show (if v > 65535 then Except.error (AddressError.InvalidV6Hextet v)
        else Except.ok (IpAddr.v6 (b / 65536 * 65536 + v))) = _
      rw [if_pos (by omega)]
  · intro arg p0 p1 begIp hsplit hbeg hdelim
    unfold parse_ip_range
    rw [hsplit]
    show (match parseIpAddr? (trimChars p0) with
      | none => Except.error
          (AddressError.InvalidRangeBegIp (String.mk (trimChars p0)))
      | some b =>
          match (if hasIpDelim (trimChars p1) then
              match parseIpAddr? (trimChars p1) with
              | none => Except.error
                  (AddressError.InvalidRangeEndIp (String.mk (trimChars p1)))
              | some e => Except.ok e
            else parse_short_range_end b (trimChars p1)) with
          | Except.error e => Except.error e
          | Except.ok endIp => IpRange.new b endIp) = _
    rw [hbeg, hdelim]
    show (match (if false = true then
        match parseIpAddr? (trimChars p1) with
        | none => Except.error
            (AddressError.InvalidRangeEndIp (String.mk (trimChars p1)))
        | some e => Except.ok e
      else parse_short_range_end begIp (trimChars p1)) with
      | Except.error e => Except.error e
      | Except.ok endIp => IpRange.new begIp endIp) = _
    rw [if_neg (by simp)]

/-- C7 (witness): the short-form theorem applied at start `10.0.0.1`
and end token `5`. -/
theorem C7_witness :
    parse_short_range_end (IpAddr.v4 167772161) ("5").toList
      = .ok (.v4 (167772161 / 256 * 256 + 5)) :=
  (C7_short_form.1 167772161 5 ("5").toList (by decide)).1 (by decide)

end IPT
